import Mathlib

/-!
Shallow embedding of the orchestra control plane (scorelab/orchestra),
covering `src/scheduler.rs`, `src/server.rs` and `src/utils.rs`.

Machine integers (`u64` object references, `usize` worker ids) are modelled
as `Nat`: every use in the source is as an index or a counter, no overflow
arithmetic is performed on them.  Fallible operations (vector indexing,
`HashMap` indexing, `Option::unwrap`, `Range::new` on an empty range) are
modelled with `Option`, `none` standing for a Rust panic.
-/

namespace Orchestra

/-- `pub type ObjRef = u64;` (utils.rs). -/
abbrev ObjRef := Nat

/-- `pub type WorkerID = usize;` (utils.rs). -/
abbrev WorkerID := Nat

/-- `pub type ObjTable = Vec<Vec<WorkerID>>;` (utils.rs): for each object,
the vector of worker ids that hold the object, indexed by `ObjRef`. -/
abbrev ObjTable := List (List WorkerID)

/-- `pub type FnTable = HashMap<String, Vec<WorkerID>>;` (utils.rs), modelled
as an association list; lookup takes the first matching key. -/
abbrev FnTable := List (String × List WorkerID)

/-- HashMap lookup (`table.get(fnname)`): first entry with the given key. -/
def fnLookup : FnTable → String → Option (List WorkerID)
  | [], _ => none
  | (g, v) :: rest, f => if g = f then some v else fnLookup rest f

/-- HashMap in-place update of an existing key (`table.get_mut(fnname)`):
replaces the value at the first entry with the given key. -/
def fnUpdate : FnTable → String → List WorkerID → FnTable
  | [], _, _ => []
  | (g, u) :: rest, f, v => if g = f then (f, v) :: rest else (g, u) :: fnUpdate rest f v

/-- `comm::Call`: function name, argument object references, result. -/
structure Call where
  name : String
  args : List ObjRef
  result : ObjRef
deriving DecidableEq

/-- Directives the scheduler sends through a worker's channel:
`send_function_call` builds an INVOKE message carrying the call, and
`send_pull_request` builds a PULL message carrying the worker id and the
object reference (scheduler.rs lines 47-60). -/
inductive Directive where
  | invoke (workerid : WorkerID) (job : Call)
  | pull (workerid : WorkerID) (objref : ObjRef)
deriving DecidableEq

/-- The loop of `slice::binary_search` (`base`/`lim` formulation used by the
Rust standard library of the era): probe `ix = base + lim/2`; on `Less`
continue right of the probe with `lim := (lim-1)/2`, on `Greater` keep `base`
with `lim := lim/2`, on `Equal` return `Ok ix`; when `lim = 0` return
`Err base` (the insertion point). -/
def binary_search_go (v : List WorkerID) (target : WorkerID) (base lim : Nat) :
    Except Nat Nat :=
  if h : lim = 0 then .error base
  else
    let ix := base + lim / 2
    let x := v.getD ix 0
    if x = target then .ok ix
    else if x < target then binary_search_go v target (ix + 1) ((lim - 1) / 2)
    else binary_search_go v target base (lim / 2)
termination_by lim
decreasing_by
  · exact Nat.lt_of_le_of_lt (Nat.div_le_self _ _) (Nat.sub_lt (Nat.pos_of_ne_zero h) Nat.one_pos)
  · exact Nat.div_lt_self (Nat.pos_of_ne_zero h) (by decide)

/-- `v.binary_search(&target)` on a `Vec<WorkerID>`. -/
def binary_search (v : List WorkerID) (target : WorkerID) : Except Nat Nat :=
  binary_search_go v target 0 v.length

/-- `Scheduler::can_run` (scheduler.rs lines 87-94): every argument's holder
set must be non-empty; `objtable[*objref as usize]` is unchecked indexing, so
an out-of-range argument reached by the loop panics (`none`). -/
def can_run (args : List ObjRef) (objtable : ObjTable) : Option Bool :=
  match args with
  | [] => some true
  | objref :: rest =>
    match objtable[objref]? with
    | none => none
    | some holders =>
      if holders.length = 0 then some false else can_run rest objtable

/-- Loop body of `Scheduler::find_next_job` (scheduler.rs lines 77-85),
scanning the job queue from index `i`:
`fntable[job.get_name()]` panics when the name is absent (`none`), then the
worker-membership binary search short-circuits `can_run`.
Result: `none` = panic, `some none` = no matching job,
`some (some i)` = first match at index `i`. -/
def find_next_job_go (fntable : FnTable) (objtable : ObjTable)
    (workerid : WorkerID) : List Call → Nat → Option (Option Nat)
  | [], _ => some none
  | job :: rest, i =>
    match fnLookup fntable job.name with
    | none => none
    | some v =>
      match binary_search v workerid with
      | .ok _ =>
        match can_run job.args objtable with
        | none => none
        | some true => some (some i)
        | some false => find_next_job_go fntable objtable workerid rest (i + 1)
      | .error _ => find_next_job_go fntable objtable workerid rest (i + 1)

/-- `Scheduler::find_next_job`. -/
def find_next_job (fntable : FnTable) (objtable : ObjTable)
    (workerid : WorkerID) (job_queue : List Call) : Option (Option Nat) :=
  find_next_job_go fntable objtable workerid job_queue 0

/-- Loop body of `Scheduler::find_next_worker` (scheduler.rs lines 97-105),
scanning the worker queue from index `i`; same guard as `find_next_job_go`,
with the job fixed and the worker drawn from the queue. -/
def find_next_worker_go (fntable : FnTable) (objtable : ObjTable)
    (job : Call) : List WorkerID → Nat → Option (Option Nat)
  | [], _ => some none
  | workerid :: rest, i =>
    match fnLookup fntable job.name with
    | none => none
    | some v =>
      match binary_search v workerid with
      | .ok _ =>
        match can_run job.args objtable with
        | none => none
        | some true => some (some i)
        | some false => find_next_worker_go fntable objtable job rest (i + 1)
      | .error _ => find_next_worker_go fntable objtable job rest (i + 1)

/-- `Scheduler::find_next_worker`. -/
def find_next_worker (fntable : FnTable) (objtable : ObjTable)
    (job : Call) (worker_queue : List WorkerID) : Option (Option Nat) :=
  find_next_worker_go fntable objtable job worker_queue 0

/-- `VecDeque::swap_front_remove(index)` of the era: swap the element at
`index` with the front element, then pop the front; returns the removed
element together with the remaining queue, `none` when out of range. -/
def swap_front_remove {α : Type} (q : List α) (idx : Nat) : Option (α × List α) :=
  match q[idx]? with
  | none => none
  | some x => some (x, ((q.set idx (q.headD x)).drop 1))

/-- The scheduler's privately owned queues (scheduler.rs lines 111-113). -/
structure SchedState where
  worker_queue : List WorkerID
  job_queue : List Call
  pull_queue : List (WorkerID × ObjRef)
deriving DecidableEq

/-- Scheduler events (scheduler.rs lines 13-26) that touch the queues.
`Register` only grows the per-worker channel vector; it and the channel
vector itself are carried by the full-state handler `dispatch_event_ch`
below.  `Debug` only reads the queues and sends a snapshot through the same
unchecked channel index; it is not modelled since no claim concerns it. -/
inductive Event where
  | worker (id : WorkerID)
  | obj (r : ObjRef)
  | job (c : Call)
  | pull (w : WorkerID) (r : ObjRef)

/-- One iteration of the event loop in `Scheduler::start_dispatch_thread`
(scheduler.rs lines 115-164): the handled event updates the queues and emits
directives in order.  `none` models a panic (unchecked `objtable` indexing in
`can_run` and in the `Event::Pull` arm, absent function name, or
`swap_front_remove(..).unwrap()`).  Deliberate simplification, for claims
about which directives the matching logic issues and how the queues evolve:
emission always succeeds here, a directive standing for the send helper
being invoked with those arguments.  The unchecked `workers[workerid]` index
inside `send_function_call`/`send_pull_request` (scheduler.rs lines 51 and
59) — which panics on an unregistered worker id — is modelled faithfully by
`dispatch_event_ch` below, which carries the channel vector; panic-behaviour
claims are settled against that handler. -/
def dispatch_event (fntable : FnTable) (objtable : ObjTable) (s : SchedState) :
    Event → Option (SchedState × List Directive)
  | .worker workerid =>
    match find_next_job fntable objtable workerid s.job_queue with
    | none => none
    | some (some jobidx) =>
      match swap_front_remove s.job_queue jobidx with
      | none => none
      | some (job, q) => some ({ s with job_queue := q }, [.invoke workerid job])
    | some none =>
      some ({ s with worker_queue := s.worker_queue ++ [workerid] }, [])
  | .job job =>
    match find_next_worker fntable objtable job s.worker_queue with
    | none => none
    | some (some workeridx) =>
      match swap_front_remove s.worker_queue workeridx with
      | none => none
      | some (workerid, q) =>
        some ({ s with worker_queue := q }, [.invoke workerid job])
    | some none =>
      some ({ s with job_queue := s.job_queue ++ [job] }, [])
  | .obj newobjref =>
    some (s, (s.pull_queue.filter (fun p => p.2 = newobjref)).map
      (fun p => .pull p.1 p.2))
  | .pull workerid objref =>
    match objtable[objref]? with
    | none => none
    | some holders =>
      if holders.length > 0 then some (s, [.pull workerid objref])
      else some ({ s with pull_queue := s.pull_queue ++ [(workerid, objref)] }, [])

/-- A per-worker channel (`Sender<comm::Message>`): only its identity
matters here — cloning preserves it, and the unchecked sends depend only on
whether an index of the channel vector is populated. -/
abbrev Chan := Nat

/-- Full state of the dispatch loop (scheduler.rs lines 110-113): the
per-worker channel vector alongside the three queues. -/
structure DispatchState where
  workers : List Chan
  worker_queue : List WorkerID
  job_queue : List Call
  pull_queue : List (WorkerID × ObjRef)
deriving DecidableEq

/-- Scheduler events including `Register(workerid, incoming)`, which binds
the worker's channel (scheduler.rs lines 22-23 and 155-160). -/
inductive EventFull where
  | worker (id : WorkerID)
  | obj (r : ObjRef)
  | job (c : Call)
  | pull (w : WorkerID) (r : ObjRef)
  | register (id : WorkerID) (ch : Chan)

/-- `Scheduler::send_function_call` (scheduler.rs lines 47-52): builds the
INVOKE message and sends it through `workers[workerid]`; the unchecked index
panics (`none`) when no channel is registered at `workerid`. -/
def send_function_call (workers : List Chan) (workerid : WorkerID)
    (job : Call) : Option Directive :=
  if workerid < workers.length then some (.invoke workerid job) else none

/-- `Scheduler::send_pull_request` (scheduler.rs lines 54-60): builds the
PULL message and sends it through `workers[workerid]`; the unchecked index
panics (`none`) when no channel is registered at `workerid`. -/
def send_pull_request (workers : List Chan) (workerid : WorkerID)
    (objref : ObjRef) : Option Directive :=
  if workerid < workers.length then some (.pull workerid objref) else none

/-- The `Event::Obj` loop (scheduler.rs lines 142-146): for every pull-queue
entry matching the new object, send a PULL request; a panic in any send
aborts the loop (`none`). -/
def send_pull_matches (workers : List Chan) (newobjref : ObjRef) :
    List (WorkerID × ObjRef) → Option (List Directive)
  | [] => some []
  | (workerid, objref) :: rest =>
    if objref = newobjref then
      match send_pull_request workers workerid objref with
      | none => none
      | some d =>
        match send_pull_matches workers newobjref rest with
        | none => none
        | some ds => some (d :: ds)
    else send_pull_matches workers newobjref rest

/-- The `Event::Register` arm (scheduler.rs lines 155-160): push clones of
the incoming channel until the vector covers `workerid`, then bind the
channel at that slot. -/
def grow_workers (workers : List Chan) (workerid : WorkerID) (ch : Chan) :
    List Chan :=
  (workers ++ List.replicate (workerid + 1 - workers.length) ch).set workerid ch

/-- One iteration of the event loop over the full state, with the channel
sends modelled faithfully: `send_function_call`/`send_pull_request` index
`workers[workerid]` unchecked, so emitting to an unregistered worker id
panics even when the matching logic succeeded. -/
def dispatch_event_ch (fntable : FnTable) (objtable : ObjTable)
    (s : DispatchState) : EventFull → Option (DispatchState × List Directive)
  | .worker workerid =>
    match find_next_job fntable objtable workerid s.job_queue with
    | none => none
    | some (some jobidx) =>
      match swap_front_remove s.job_queue jobidx with
      | none => none
      | some (job, q) =>
        match send_function_call s.workers workerid job with
        | none => none
        | some d => some ({ s with job_queue := q }, [d])
    | some none =>
      some ({ s with worker_queue := s.worker_queue ++ [workerid] }, [])
  | .job job =>
    match find_next_worker fntable objtable job s.worker_queue with
    | none => none
    | some (some workeridx) =>
      match swap_front_remove s.worker_queue workeridx with
      | none => none
      | some (workerid, q) =>
        match send_function_call s.workers workerid job with
        | none => none
        | some d => some ({ s with worker_queue := q }, [d])
    | some none =>
      some ({ s with job_queue := s.job_queue ++ [job] }, [])
  | .obj newobjref =>
    match send_pull_matches s.workers newobjref s.pull_queue with
    | none => none
    | some ds => some (s, ds)
  | .pull workerid objref =>
    match objtable[objref]? with
    | none => none
    | some holders =>
      if holders.length > 0 then
        match send_pull_request s.workers workerid objref with
        | none => none
        | some d => some (s, [d])
      else
        some ({ s with pull_queue := s.pull_queue ++ [(workerid, objref)] }, [])
  | .register workerid ch =>
    some ({ s with workers := grow_workers s.workers workerid ch }, [])

/-- `REGISTER_FUNCTION` arm of `Server::process_request` (server.rs lines
274-287): create an empty sorted set for a fresh name, then insert the worker
id at the position reported by the failed binary search; a successful search
leaves the table unchanged. -/
def register_function (table : FnTable) (workerid : WorkerID) (fnname : String) :
    FnTable :=
  let table1 := if (fnLookup table fnname).isSome then table
    else table ++ [(fnname, [])]
  match fnLookup table1 fnname with
  | none => table1
  | some v =>
    match binary_search v workerid with
    | .ok _ => table1
    | .error idx => fnUpdate table1 fnname (v.take idx ++ workerid :: v.drop idx)

/-- A `DELIVER` directive published on the broadcast channel
(`WorkerPool::send_deliver_request`, server.rs lines 115-121): `target` is
the holder asked to deliver, `address` the requesting worker's address. -/
structure DeliverMsg where
  target : WorkerID
  objref : ObjRef
  address : String
deriving DecidableEq

/-- `WorkerPool::deliver_object` (server.rs lines 124-135).  The uniform
sample drawn from `Range::new(0, len)` is passed in as `sample`; the `rand`
crate guarantees `sample < len` and `Range::new(0, 0)` panics, which the
out-of-range lookup `holders[sample]?` respectively the length test model.
`workers` is the worker registry read for the target's address. -/
def deliver_object (workerid : WorkerID) (objref : ObjRef)
    (workers : List String) (objtable : ObjTable) (sample : Nat) :
    Option (List DeliverMsg) :=
  match objtable[objref]? with
  | none => none
  | some holders =>
    if workerid ∈ holders then some []
    else if holders.length = 0 then none
    else
      match holders[sample]?, workers[workerid]? with
      | some pullid, some addr => some [⟨pullid, objref, addr⟩]
      | _, _ => none

/-- Body of the deduplication loop of `args_to_send` (utils.rs lines 25-35),
one fuel unit per loop index: at index `i` the element is skipped when it
equals its left neighbour in the sorted scratch vector, and otherwise kept at
write position `curr` when `absent` holds; the caller passes
`fuel = scratch.length` so the loop runs for `i = 0, …, scratch.length - 1`
and ends with `scratch.truncate(curr)`. -/
def args_to_send_loop (absent : ObjRef → Bool) :
    Nat → List ObjRef → Nat → Nat → List ObjRef
  | 0, scratch, curr, _ => scratch.take curr
  | fuel + 1, scratch, curr, i =>
    let arg := scratch.getD i 0
    if 0 < i ∧ arg = scratch.getD (i - 1) 0 then
      args_to_send_loop absent fuel scratch curr (i + 1)
    else if absent arg then
      args_to_send_loop absent fuel (scratch.set curr arg) (curr + 1) (i + 1)
    else
      args_to_send_loop absent fuel scratch curr (i + 1)

/-- `args_to_send` (utils.rs lines 21-38): copy the arguments, sort them
(`slice::sort` is a stable ascending sort; on `Nat` any ascending sort
agrees with it), then run the dedup-and-filter loop. -/
def args_to_send (args : List ObjRef) (absent : ObjRef → Bool) : List ObjRef :=
  let scratch := List.insertionSort (· ≤ ·) args
  args_to_send_loop absent scratch.length scratch 0 0

/-- Digit loop of the decimal formatter: peel digits off the low end,
accumulating ASCII bytes (`48 + digit`) most-significant first. -/
def decimal_digits_go : Nat → List Nat → List Nat
  | n, acc => if n = 0 then acc else decimal_digits_go (n / 10) ((48 + n % 10) :: acc)
termination_by n _ => n
decreasing_by exact Nat.div_lt_self (Nat.pos_of_ne_zero (by assumption)) (by decide)

/-- ASCII bytes of the decimal representation of `n` (`0` prints as "0"). -/
def decimal_bytes (n : Nat) : List Nat :=
  if n = 0 then [48] else decimal_digits_go n []

/-- The frame published by `WorkerPool::start_publisher_thread` (server.rs
lines 56-63): `write!(buf, "{:0>#07}", workerid)` pads the decimal
representation on the left with ASCII `'0'` (48) to a minimum width of 7,
then the serialised message bytes are appended. -/
def publish_frame (workerid : WorkerID) (msg : List Nat) : List Nat :=
  let d := decimal_bytes workerid
  List.replicate (7 - d.length) 48 ++ d ++ msg

/-! ### Correctness of the binary search -/

theorem pairwise_getD_lt {v : List Nat} (hsort : List.Pairwise (· < ·) v)
    {i j : Nat} (hij : i < j) (hj : j < v.length) :
    v.getD i 0 < v.getD j 0 := by
  have hi : i < v.length := Nat.lt_trans hij hj
  rw [List.getD_eq_getElem v 0 hi, List.getD_eq_getElem v 0 hj]
  exact List.pairwise_iff_getElem.mp hsort i j hi hj hij

/-- Window invariant for the binary search loop: everything left of `base` is
below the target, everything at or beyond `base + lim` is above it.  A hit
returns an in-range index holding the target; a miss returns the insertion
point. -/
theorem binary_search_go_spec {v : List Nat} {t : Nat}
    (hsort : List.Pairwise (· < ·) v) :
    ∀ lim base, base + lim ≤ v.length →
      (∀ j, j < base → v.getD j 0 < t) →
      (∀ j, base + lim ≤ j → j < v.length → t < v.getD j 0) →
      (∀ i, binary_search_go v t base lim = .ok i →
        i < v.length ∧ v.getD i 0 = t) ∧
      (∀ b, binary_search_go v t base lim = .error b →
        b ≤ v.length ∧ (∀ j, j < b → v.getD j 0 < t) ∧
        (∀ j, b ≤ j → j < v.length → t < v.getD j 0)) := by
  intro lim
  induction lim using Nat.strong_induction_on with
  | _ lim IH =>
    intro base hle hlo hhi
    rw [binary_search_go]
    by_cases h0 : lim = 0
    · subst h0
      simp only [dif_pos]
      refine ⟨fun i hi => Except.noConfusion hi, fun b hb => ?_⟩
      injection hb with hb
      subst hb
      exact ⟨by omega, fun j hj => hlo j hj, fun j hj hjl => hhi j (by omega) hjl⟩
    · rw [dif_neg h0]
      simp only
      have hixlt : base + lim / 2 < v.length := by omega
      by_cases heq : v.getD (base + lim / 2) 0 = t
      · rw [if_pos heq]
        refine ⟨fun i hi => ?_, fun b hb => Except.noConfusion hb⟩
        injection hi with hi
        subst hi
        exact ⟨hixlt, heq⟩
      · rw [if_neg heq]
        by_cases hlt : v.getD (base + lim / 2) 0 < t
        · rw [if_pos hlt]
          exact IH ((lim - 1) / 2) (by omega) (base + lim / 2 + 1) (by omega)
            (fun j hj => by
              rcases Nat.lt_or_ge j (base + lim / 2) with hj' | hj'
              · exact Nat.lt_trans (pairwise_getD_lt hsort hj' hixlt) hlt
              · have hje : j = base + lim / 2 := by omega
                rw [hje]; exact hlt)
            (fun j hj hjl => hhi j (by omega) hjl)
        · rw [if_neg hlt]
          have hgt : t < v.getD (base + lim / 2) 0 := by omega
          exact IH (lim / 2) (by omega) base (by omega) hlo
            (fun j hj hjl => by
              rcases Nat.lt_or_ge (base + lim / 2) j with hj' | hj'
              · exact Nat.lt_trans hgt (pairwise_getD_lt hsort hj' hjl)
              · have hje : j = base + lim / 2 := by omega
                rw [← hje] at hgt; exact hgt)

/-- On a strictly sorted vector, a successful search returns an index holding
the target. -/
theorem binary_search_ok {v : List Nat} {t : Nat} {i : Nat}
    (hsort : List.Pairwise (· < ·) v) (h : binary_search v t = .ok i) :
    i < v.length ∧ v.getD i 0 = t :=
  ((binary_search_go_spec hsort v.length 0 (by omega)
    (fun j hj => absurd hj (Nat.not_lt_zero j))
    (fun j hj hjl => absurd hjl (by omega))).1 i h)

/-- On a strictly sorted vector, a failed search returns the insertion point:
everything before it is smaller, everything from it on is larger; in
particular the target is absent and inserting it there keeps the vector
strictly sorted. -/
theorem binary_search_error {v : List Nat} {t : Nat} {b : Nat}
    (hsort : List.Pairwise (· < ·) v) (h : binary_search v t = .error b) :
    b ≤ v.length ∧ (∀ j, j < b → v.getD j 0 < t) ∧
      (∀ j, b ≤ j → j < v.length → t < v.getD j 0) :=
  ((binary_search_go_spec hsort v.length 0 (by omega)
    (fun j hj => absurd hj (Nat.not_lt_zero j))
    (fun j hj hjl => absurd hjl (by omega))).2 b h)

/-- A failed search means the target is absent from a sorted vector. -/
theorem binary_search_error_not_mem {v : List Nat} {t : Nat} {b : Nat}
    (hsort : List.Pairwise (· < ·) v) (h : binary_search v t = .error b) :
    t ∉ v := by
  intro hmem
  obtain ⟨j, hj, hjv⟩ := List.getElem_of_mem hmem
  obtain ⟨-, hlo, hhi⟩ := binary_search_error hsort h
  have hd : v.getD j 0 = t := by rw [List.getD_eq_getElem v 0 hj]; exact hjv
  rcases Nat.lt_or_ge j b with hx | hx
  · exact absurd (hlo j hx) (by rw [hd]; omega)
  · exact absurd (hhi j hx hj) (by rw [hd]; omega)

/-- A sorted vector containing the target is never missed. -/
theorem binary_search_mem {v : List Nat} {t : Nat}
    (hsort : List.Pairwise (· < ·) v) (hmem : t ∈ v) :
    ∃ i, binary_search v t = .ok i := by
  rcases hres : binary_search v t with b | i
  · exact absurd hmem (binary_search_error_not_mem hsort hres)
  · exact ⟨i, rfl⟩

/-! ### Function-table registration -/

/-- Effect of the `REGISTER_FUNCTION` arm on the single sorted set it
touches: keep the set on a hit, insert at the reported position on a miss. -/
def insert_result (v : List WorkerID) (w : WorkerID) : List WorkerID :=
  match binary_search v w with
  | .ok _ => v
  | .error idx => v.take idx ++ w :: v.drop idx

theorem insert_result_sorted {v : List WorkerID} {w : WorkerID}
    (hsort : List.Pairwise (· < ·) v) :
    List.Pairwise (· < ·) (insert_result v w) := by
  unfold insert_result
  rcases hres : binary_search v w with idx | i
  · obtain ⟨hbl, hlo, hhi⟩ := binary_search_error hsort hres
    rw [List.pairwise_append]
    refine ⟨hsort.sublist (List.take_sublist idx v), ?_, ?_⟩
    · rw [List.pairwise_cons]
      refine ⟨?_, hsort.sublist (List.drop_sublist idx v)⟩
      intro a ha
      obtain ⟨k, hk, hka⟩ := List.getElem_of_mem ha
      have hlen : idx + k < v.length := by
        have := hk; rw [List.length_drop] at this; omega
      have : (v.drop idx)[k] = v[idx + k] := List.getElem_drop v
      rw [this] at hka
      have := hhi (idx + k) (by omega) hlen
      rw [List.getD_eq_getElem v 0 hlen, hka] at this
      exact this
    · intro a ha b hb
      obtain ⟨k, hk, hka⟩ := List.getElem_of_mem ha
      have hkidx : k < idx := by
        have := hk; rw [List.length_take] at this; omega
      have hkv : k < v.length := by
        have := hk; rw [List.length_take] at this; omega
      have : (v.take idx)[k] = v[k] := List.getElem_take v
      rw [this] at hka
      have hak : a < w := by
        have := hlo k hkidx
        rw [List.getD_eq_getElem v 0 hkv, hka] at this
        exact this
      rcases List.mem_cons.mp hb with hbw | hbd
      · rw [hbw]; exact hak
      · obtain ⟨k2, hk2, hk2b⟩ := List.getElem_of_mem hbd
        have hlen2 : idx + k2 < v.length := by
          have := hk2; rw [List.length_drop] at this; omega
        have : (v.drop idx)[k2] = v[idx + k2] := List.getElem_drop v
        rw [this] at hk2b
        have := hhi (idx + k2) (by omega) hlen2
        rw [List.getD_eq_getElem v 0 hlen2, hk2b] at this
        exact Nat.lt_trans hak this
  · exact hsort

theorem insert_result_mem {v : List WorkerID} {w : WorkerID}
    (hsort : List.Pairwise (· < ·) v) : w ∈ insert_result v w := by
  unfold insert_result
  rcases hres : binary_search v w with idx | i
  · exact List.mem_append_right _ (List.mem_cons_self w _)
  · obtain ⟨hlt, hget⟩ := binary_search_ok hsort hres
    rw [List.getD_eq_getElem v 0 hlt] at hget
    exact hget ▸ List.getElem_mem hlt

theorem insert_result_of_mem {v : List WorkerID} {w : WorkerID}
    (hsort : List.Pairwise (· < ·) v) (hmem : w ∈ v) :
    insert_result v w = v := by
  unfold insert_result
  obtain ⟨i, hok⟩ := binary_search_mem hsort hmem
  rw [hok]

theorem fnLookup_append_fresh {t : FnTable} {f : String}
    (h : fnLookup t f = none) (v : List WorkerID) :
    fnLookup (t ++ [(f, v)]) f = some v := by
  induction t with
  | nil => simp [fnLookup]
  | cons e rest ih =>
    obtain ⟨g, u⟩ := e
    by_cases hg : g = f
    · rw [fnLookup, if_pos hg] at h; exact Option.noConfusion h
    · rw [fnLookup, if_neg hg] at h
      rw [List.cons_append, fnLookup, if_neg hg]
      exact ih h

theorem fnLookup_fnUpdate_self {t : FnTable} {f : String} {u : List WorkerID}
    (h : fnLookup t f = some u) (v : List WorkerID) :
    fnLookup (fnUpdate t f v) f = some v := by
  induction t with
  | nil => exact Option.noConfusion h
  | cons e rest ih =>
    obtain ⟨g, u'⟩ := e
    by_cases hg : g = f
    · rw [fnUpdate, if_pos hg, fnLookup, if_pos rfl]
    · rw [fnLookup, if_neg hg] at h
      rw [fnUpdate, if_neg hg, fnLookup, if_neg hg]
      exact ih h

theorem fnLookup_fnUpdate_other {t : FnTable} {f g : String}
    (hg : g ≠ f) (v : List WorkerID) :
    fnLookup (fnUpdate t f v) g = fnLookup t g := by
  induction t with
  | nil => rfl
  | cons e rest ih =>
    obtain ⟨g', u⟩ := e
    by_cases hgf : g' = f
    · subst hgf
      rw [fnUpdate, if_pos rfl, fnLookup, fnLookup, if_neg (Ne.symm hg),
        if_neg (Ne.symm hg)]
    · rw [fnUpdate, if_neg hgf, fnLookup, fnLookup]
      by_cases hgg : g' = g
      · rw [if_pos hgg, if_pos hgg]
      · rw [if_neg hgg, if_neg hgg, ih]

theorem fnLookup_append_other {t : FnTable} {f g : String} (hg : g ≠ f)
    (v : List WorkerID) : fnLookup (t ++ [(f, v)]) g = fnLookup t g := by
  induction t with
  | nil => simp [fnLookup, Ne.symm hg]
  | cons e rest ih =>
    obtain ⟨g', u⟩ := e
    rw [List.cons_append, fnLookup, fnLookup]
    by_cases hgg : g' = g
    · rw [if_pos hgg, if_pos hgg]
    · rw [if_neg hgg, if_neg hgg]
      exact ih

theorem binary_search_nil (w : WorkerID) :
    binary_search [] w = .error 0 := by
  rw [binary_search, binary_search_go]
  rfl

/-- Unfolding of `register_function` when the name is fresh: the empty set is
created and the worker inserted at position 0. -/
theorem register_function_of_none {t : FnTable} {f : String} (w : WorkerID)
    (hcur : fnLookup t f = none) :
    register_function t w f = fnUpdate (t ++ [(f, [])]) f [w] := by
  unfold register_function
  rw [hcur]
  have h1 : fnLookup (t ++ [(f, [])]) f = some [] := fnLookup_append_fresh hcur []
  simp only [Option.isSome_none, Bool.false_eq_true, if_false, h1,
    binary_search_nil, List.take_nil, List.drop_nil, List.nil_append]

/-- Unfolding of `register_function` when the name is present. -/
theorem register_function_of_some {t : FnTable} {f : String} {v : List WorkerID}
    (w : WorkerID) (hcur : fnLookup t f = some v) :
    register_function t w f =
      match binary_search v w with
      | .ok _ => t
      | .error idx => fnUpdate t f (v.take idx ++ w :: v.drop idx) := by
  unfold register_function
  rw [hcur]
  simp only [Option.isSome_some, if_true, hcur]

/-- The `REGISTER_FUNCTION` arm updates exactly the touched key, by the
sorted-set insertion. -/
theorem register_function_lookup_self (t : FnTable) (w : WorkerID) (f : String) :
    fnLookup (register_function t w f) f =
      some (insert_result ((fnLookup t f).getD []) w) := by
  rcases hcur : fnLookup t f with - | v
  · rw [register_function_of_none w hcur]
    have h1 : fnLookup (t ++ [(f, [])]) f = some [] := fnLookup_append_fresh hcur []
    rw [fnLookup_fnUpdate_self h1 [w], Option.getD_none]
    unfold insert_result
    rw [binary_search_nil]
    rfl
  · rw [register_function_of_some w hcur, Option.getD_some]
    unfold insert_result
    rcases hres : binary_search v w with idx | i
    · exact fnLookup_fnUpdate_self hcur _
    · exact hcur

/-- The `REGISTER_FUNCTION` arm leaves every other key unchanged. -/
theorem register_function_lookup_other (t : FnTable) (w : WorkerID)
    {f g : String} (hg : g ≠ f) :
    fnLookup (register_function t w f) g = fnLookup t g := by
  rcases hcur : fnLookup t f with - | v
  · rw [register_function_of_none w hcur, fnLookup_fnUpdate_other hg,
      fnLookup_append_other hg]
  · rw [register_function_of_some w hcur]
    rcases hres : binary_search v w with idx | i
    · rw [fnLookup_fnUpdate_other hg]
    · rfl

/-- Every sorted set stored in the table is strictly increasing. -/
def TableSorted (t : FnTable) : Prop :=
  ∀ f v, fnLookup t f = some v → List.Pairwise (· < ·) v

theorem tableSorted_nil : TableSorted [] := fun _ v h => Option.noConfusion h

theorem register_function_preserves_sorted {t : FnTable}
    (h : TableSorted t) (w : WorkerID) (f : String) :
    TableSorted (register_function t w f) := by
  intro g v hv
  by_cases hg : g = f
  · subst hg
    rw [register_function_lookup_self] at hv
    injection hv with hv
    subst hv
    apply insert_result_sorted
    rcases hcur : fnLookup t g with - | u
    · simp
    · rw [Option.getD_some]
      exact h g u hcur
  · rw [register_function_lookup_other t w hg] at hv
    exact h g v hv

/-- Registering an already-present worker for a sorted set is a no-op on the
whole table. -/
theorem register_function_noop {t : FnTable} {w : WorkerID} {f : String}
    {v : List WorkerID} (hl : fnLookup t f = some v)
    (hsort : List.Pairwise (· < ·) v) (hmem : w ∈ v) :
    register_function t w f = t := by
  rw [register_function_of_some w hl]
  obtain ⟨i, hok⟩ := binary_search_mem hsort hmem
  rw [hok]

/-! ### Scheduler lemmas -/

/-- A successful search (sorted or not) returns an index holding the target,
provided the initial window is within bounds. -/
theorem binary_search_go_ok_getD {v : List WorkerID} {t : WorkerID} :
    ∀ lim base i, base + lim ≤ v.length →
      binary_search_go v t base lim = .ok i →
      i < v.length ∧ v.getD i 0 = t := by
  intro lim
  induction lim using Nat.strong_induction_on with
  | _ lim IH =>
    intro base i hle h
    rw [binary_search_go] at h
    by_cases h0 : lim = 0
    · rw [dif_pos h0] at h
      exact Except.noConfusion h
    · rw [dif_neg h0] at h
      simp only at h
      by_cases heq : v.getD (base + lim / 2) 0 = t
      · rw [if_pos heq] at h
        injection h with h
        subst h
        exact ⟨by omega, heq⟩
      · rw [if_neg heq] at h
        by_cases hlt : v.getD (base + lim / 2) 0 < t
        · rw [if_pos hlt] at h
          exact IH ((lim - 1) / 2) (by omega) (base + lim / 2 + 1) i (by omega) h
        · rw [if_neg hlt] at h
          exact IH (lim / 2) (by omega) base i (by omega) h

/-- A successful search witnesses membership. -/
theorem binary_search_ok_mem {v : List WorkerID} {t : WorkerID} {i : Nat}
    (h : binary_search v t = .ok i) : t ∈ v := by
  obtain ⟨hlt, hget⟩ := binary_search_go_ok_getD v.length 0 i (by omega) h
  rw [List.getD_eq_getElem v 0 hlt] at hget
  exact hget ▸ List.getElem_mem hlt

/-- `can_run` answers `true` exactly when every argument is allocated and has
a non-empty holder set. -/
theorem can_run_eq_true {args : List ObjRef} {ot : ObjTable} :
    can_run args ot = some true ↔
      ∀ a ∈ args, ∃ h, ot[a]? = some h ∧ h ≠ [] := by
  induction args with
  | nil => simp [can_run]
  | cons a rest ih =>
    rw [can_run]
    rcases hget : ot[a]? with - | holders
    · simp [hget]
    · change (if holders.length = 0 then some false else can_run rest ot) = some true ↔ _
      by_cases hlen : holders.length = 0
      · rw [if_pos hlen]
        have hnil : holders = [] := List.length_eq_zero.mp hlen
        simp [hget, hnil]
      · rw [if_neg hlen]
        rw [ih]
        constructor
        · intro h b hb
          rcases List.mem_cons.mp hb with hba | hbr
          · exact hba ▸ ⟨holders, hget, fun hc => hlen (hc ▸ rfl)⟩
          · exact h b hbr
        · intro h b hb
          exact h b (List.mem_cons_of_mem a hb)

/-- `can_run` cannot panic when every argument is allocated. -/
theorem can_run_isSome {args : List ObjRef} {ot : ObjTable}
    (h : ∀ a ∈ args, a < ot.length) : (can_run args ot).isSome := by
  induction args with
  | nil => rfl
  | cons a rest ih =>
    rw [can_run]
    have ha : a < ot.length := h a (List.mem_cons_self a rest)
    rcases hget : ot[a]? with - | holders
    · exact absurd ha (Nat.not_lt.mpr (List.getElem?_eq_none_iff.mp hget))
    · change (if holders.length = 0 then some false else can_run rest ot).isSome = true
      by_cases hlen : holders.length = 0
      · rw [if_pos hlen]; rfl
      · rw [if_neg hlen]
        exact ih (fun b hb => h b (List.mem_cons_of_mem a hb))

/-- `can_run` panics as soon as it examines an unallocated argument. -/
theorem can_run_oob_head {a : ObjRef} (rest : List ObjRef) {ot : ObjTable}
    (h : ot.length ≤ a) : can_run (a :: rest) ot = none := by
  rw [can_run, List.getElem?_eq_none h]

/-- A successful scan of the job queue found, at the returned index, a job
passing both guards: the worker is found by the binary search in the job's
function entry, and every argument is available. -/
theorem find_next_job_go_found {ft : FnTable} {ot : ObjTable} {w : WorkerID} :
    ∀ (q : List Call) (k i : Nat),
      find_next_job_go ft ot w q k = some (some i) →
      k ≤ i ∧ ∃ job v, q[i - k]? = some job ∧
        fnLookup ft job.name = some v ∧
        (∃ j, binary_search v w = .ok j) ∧
        can_run job.args ot = some true := by
  intro q
  induction q with
  | nil => intro k i h; rw [find_next_job_go] at h; injection h with h; exact Option.noConfusion h
  | cons job rest ih =>
    intro k i h
    rw [find_next_job_go] at h
    rcases hfn : fnLookup ft job.name with - | v
    · rw [hfn] at h; exact Option.noConfusion h
    · simp only [hfn] at h
      rcases hbs : binary_search v w with idx | j
      · simp only [hbs] at h
        obtain ⟨hk, job', v', hget, hfn', hbs', hcr'⟩ := ih (k + 1) i h
        refine ⟨by omega, job', v', ?_, hfn', hbs', hcr'⟩
        have hik : i - k = (i - (k + 1)) + 1 := by omega
        rw [hik, List.getElem?_cons_succ]
        exact hget
      · simp only [hbs] at h
        rcases hcr : can_run job.args ot with - | b
        · rw [hcr] at h
          exact Option.noConfusion h
        · rcases b with - | -
          · simp only [hcr] at h
            obtain ⟨hk, job', v', hget, hfn', hbs', hcr'⟩ := ih (k + 1) i h
            refine ⟨by omega, job', v', ?_, hfn', hbs', hcr'⟩
            have hik : i - k = (i - (k + 1)) + 1 := by omega
            rw [hik, List.getElem?_cons_succ]
            exact hget
          · simp only [hcr] at h
            injection h with h
            injection h with h
            subst h
            exact ⟨Nat.le_refl k, job, v, by simp, hfn, ⟨j, hbs⟩, hcr⟩

/-- Analogue of `find_next_job_go_found` for the worker-queue scan. -/
theorem find_next_worker_go_found {ft : FnTable} {ot : ObjTable} {job : Call} :
    ∀ (q : List WorkerID) (k i : Nat),
      find_next_worker_go ft ot job q k = some (some i) →
      k ≤ i ∧ ∃ w v, q[i - k]? = some w ∧
        fnLookup ft job.name = some v ∧
        (∃ j, binary_search v w = .ok j) ∧
        can_run job.args ot = some true := by
  intro q
  induction q with
  | nil => intro k i h; rw [find_next_worker_go] at h; injection h with h; exact Option.noConfusion h
  | cons w rest ih =>
    intro k i h
    rw [find_next_worker_go] at h
    rcases hfn : fnLookup ft job.name with - | v
    · rw [hfn] at h
      exact Option.noConfusion h
    · simp only [hfn] at h
      rcases hbs : binary_search v w with idx | j
      · simp only [hbs] at h
        obtain ⟨hk, w', v', hget, hfn', hbs', hcr'⟩ := ih (k + 1) i h
        refine ⟨by omega, w', v', ?_, hfn ▸ hfn', hbs', hcr'⟩
        have hik : i - k = (i - (k + 1)) + 1 := by omega
        rw [hik, List.getElem?_cons_succ]
        exact hget
      · simp only [hbs] at h
        rcases hcr : can_run job.args ot with - | b
        · rw [hcr] at h
          exact Option.noConfusion h
        · rcases b with - | -
          · simp only [hcr] at h
            obtain ⟨hk, w', v', hget, hfn', hbs', hcr'⟩ := ih (k + 1) i h
            exact absurd (hcr.symm.trans hcr') (by decide)
          · simp only [hcr] at h
            injection h with h
            injection h with h
            subst h
            exact ⟨Nat.le_refl k, w, v, by simp, rfl, ⟨j, hbs⟩, rfl⟩

/-- The job-queue scan cannot panic when every queued job has a registered
name and allocated arguments. -/
theorem find_next_job_go_total {ft : FnTable} {ot : ObjTable} {w : WorkerID} :
    ∀ (q : List Call) (k : Nat),
      (∀ job ∈ q, (fnLookup ft job.name).isSome ∧
        ∀ a ∈ job.args, a < ot.length) →
      (find_next_job_go ft ot w q k).isSome := by
  intro q
  induction q with
  | nil => intro k h; rfl
  | cons job rest ih =>
    intro k h
    obtain ⟨hfn, hargs⟩ := h job (List.mem_cons_self job rest)
    rw [find_next_job_go]
    rcases hlook : fnLookup ft job.name with - | v
    · rw [hlook] at hfn
      exact Bool.noConfusion hfn
    · simp only []
      rcases hbs : binary_search v w with idx | j
      · exact ih (k + 1) (fun j hj => h j (List.mem_cons_of_mem job hj))
      · simp only []
        have hcrs : (can_run job.args ot).isSome = true := can_run_isSome hargs
        rcases hcr : can_run job.args ot with - | b
        · rw [hcr] at hcrs
          exact Bool.noConfusion hcrs
        · rcases b with - | -
          · exact ih (k + 1) (fun j hj => h j (List.mem_cons_of_mem job hj))
          · rfl

/-- The worker-queue scan cannot panic when the job's name is registered and
its arguments are allocated. -/
theorem find_next_worker_go_total {ft : FnTable} {ot : ObjTable} {job : Call}
    (hfn : (fnLookup ft job.name).isSome)
    (hargs : ∀ a ∈ job.args, a < ot.length) :
    ∀ (q : List WorkerID) (k : Nat),
      (find_next_worker_go ft ot job q k).isSome := by
  intro q
  induction q with
  | nil => intro k; rfl
  | cons w rest ih =>
    intro k
    rw [find_next_worker_go]
    rcases hlook : fnLookup ft job.name with - | v
    · rw [hlook] at hfn
      exact Bool.noConfusion hfn
    · simp only []
      rcases hbs : binary_search v w with idx | j
      · exact ih (k + 1)
      · simp only []
        have hcrs : (can_run job.args ot).isSome = true := can_run_isSome hargs
        rcases hcr : can_run job.args ot with - | b
        · rw [hcr] at hcrs
          exact Bool.noConfusion hcrs
        · rcases b with - | -
          · exact ih (k + 1)
          · rfl

theorem swap_front_remove_eq {α : Type} {q : List α} {i : Nat} {x : α}
    {q' : List α} (h : swap_front_remove q i = some (x, q')) :
    q[i]? = some x ∧ q' = (q.set i (q.headD x)).drop 1 := by
  unfold swap_front_remove at h
  rcases hget : q[i]? with - | y
  · rw [hget] at h; exact Option.noConfusion h
  · rw [hget] at h
    injection h with h
    injection h with h1 h2
    subst h1
    exact ⟨rfl, h2.symm⟩

/-- The queue left by `swap_front_remove` is a permutation of the queue with
the requested index erased; it equals it (preserving order) exactly when the
index is 0 or 1, the front element otherwise moving into the vacated slot. -/
theorem swap_front_remove_perm {α : Type} {q : List α} {i : Nat} {x : α}
    {q' : List α} (h : swap_front_remove q i = some (x, q')) :
    q'.Perm (q.eraseIdx i) ∧ (i ≤ 1 → q' = q.eraseIdx i) := by
  obtain ⟨hget, hq'⟩ := swap_front_remove_eq h
  have hi : i < q.length := by
    rcases List.getElem?_eq_some.mp hget with ⟨hlt, -⟩
    exact hlt
  rcases q with - | ⟨a, t⟩
  · simp at hi
  · rw [List.headD_cons] at hq'
    rcases i with - | j
    · rw [List.set_cons_zero, List.drop_one, List.tail_cons] at hq'
      rw [hq', List.eraseIdx_cons_zero]
      exact ⟨List.Perm.refl t, fun _ => rfl⟩
    · rw [List.set_cons_succ, List.drop_one, List.tail_cons] at hq'
      rw [List.eraseIdx_cons_succ]
      have hj : j < t.length := by
        rw [List.length_cons] at hi; omega
      constructor
      · rw [hq', List.set_eq_take_append_cons_drop, if_pos hj,
          List.eraseIdx_eq_take_drop_succ]
        exact List.perm_middle
      · intro hle
        have hj0 : j = 0 := by omega
        subst hj0
        rcases t with - | ⟨b, t'⟩
        · simp at hj
        · rw [hq', List.set_cons_zero, List.eraseIdx_cons_zero]

/-! ### Case analysis of the event handlers -/

/-- Inversion of the `Event::Worker` arm: either a job was matched and
removed by swap-with-front with a single INVOKE emitted, or no job matched
and the worker was appended to the worker queue. -/
theorem dispatch_event_worker_inv {ft : FnTable} {ot : ObjTable}
    {s : SchedState} {id : WorkerID} {s' : SchedState} {ds : List Directive}
    (h : dispatch_event ft ot s (.worker id) = some (s', ds)) :
    (∃ i job q, find_next_job ft ot id s.job_queue = some (some i) ∧
      swap_front_remove s.job_queue i = some (job, q) ∧
      s' = { s with job_queue := q } ∧ ds = [.invoke id job]) ∨
    (find_next_job ft ot id s.job_queue = some none ∧
      s' = { s with worker_queue := s.worker_queue ++ [id] } ∧ ds = []) := by
  rw [dispatch_event] at h
  rcases hf : find_next_job ft ot id s.job_queue with - | r
  · rw [hf] at h
    exact Option.noConfusion h
  · rcases r with - | i
    · simp only [hf] at h
      injection h with h
      injection h with h1 h2
      exact Or.inr ⟨rfl, h1.symm, h2.symm⟩
    · simp only [hf] at h
      rcases hsw : swap_front_remove s.job_queue i with - | p
      · rw [hsw] at h
        exact Option.noConfusion h
      · obtain ⟨job, q⟩ := p
        simp only [hsw] at h
        injection h with h
        injection h with h1 h2
        exact Or.inl ⟨i, job, q, rfl, hsw, h1.symm, h2.symm⟩

/-- Inversion of the `Event::Job` arm. -/
theorem dispatch_event_job_inv {ft : FnTable} {ot : ObjTable}
    {s : SchedState} {c : Call} {s' : SchedState} {ds : List Directive}
    (h : dispatch_event ft ot s (.job c) = some (s', ds)) :
    (∃ i w q, find_next_worker ft ot c s.worker_queue = some (some i) ∧
      swap_front_remove s.worker_queue i = some (w, q) ∧
      s' = { s with worker_queue := q } ∧ ds = [.invoke w c]) ∨
    (find_next_worker ft ot c s.worker_queue = some none ∧
      s' = { s with job_queue := s.job_queue ++ [c] } ∧ ds = []) := by
  rw [dispatch_event] at h
  rcases hf : find_next_worker ft ot c s.worker_queue with - | r
  · rw [hf] at h
    exact Option.noConfusion h
  · rcases r with - | i
    · simp only [hf] at h
      injection h with h
      injection h with h1 h2
      exact Or.inr ⟨rfl, h1.symm, h2.symm⟩
    · simp only [hf] at h
      rcases hsw : swap_front_remove s.worker_queue i with - | p
      · rw [hsw] at h
        exact Option.noConfusion h
      · obtain ⟨w, q⟩ := p
        simp only [hsw] at h
        injection h with h
        injection h with h1 h2
        exact Or.inl ⟨i, w, q, rfl, hsw, h1.symm, h2.symm⟩

/-- The `Event::Obj` arm: the state (all three queues) is returned untouched
and one PULL directive is emitted per matching pull-queue entry, in order. -/
theorem dispatch_event_obj_eq (ft : FnTable) (ot : ObjTable) (s : SchedState)
    (r : ObjRef) :
    dispatch_event ft ot s (.obj r) =
      some (s, (s.pull_queue.filter (fun p => p.2 = r)).map
        (fun p => Directive.pull p.1 p.2)) := by
  rw [dispatch_event]

/-- The `Event::Pull` arm when the object is available. -/
theorem dispatch_event_pull_hit {ft : FnTable} {ot : ObjTable}
    {s : SchedState} {w : WorkerID} {r : ObjRef} {holders : List WorkerID}
    (hget : ot[r]? = some holders) (hne : holders ≠ []) :
    dispatch_event ft ot s (.pull w r) = some (s, [.pull w r]) := by
  rw [dispatch_event]
  simp only [hget]
  rw [if_pos (by exact List.length_pos.mpr hne)]

/-- The `Event::Pull` arm when the object has no holder yet. -/
theorem dispatch_event_pull_miss {ft : FnTable} {ot : ObjTable}
    {s : SchedState} {w : WorkerID} {r : ObjRef} {holders : List WorkerID}
    (hget : ot[r]? = some holders) (hnil : holders = []) :
    dispatch_event ft ot s (.pull w r) =
      some ({ s with pull_queue := s.pull_queue ++ [(w, r)] }, []) := by
  rw [dispatch_event]
  simp only [hget]
  rw [if_neg (by rw [hnil]; exact fun hc => Nat.lt_irrefl 0 hc)]

/-- The `Event::Pull` arm panics on an unallocated object reference. -/
theorem dispatch_event_pull_oob {ft : FnTable} {ot : ObjTable}
    {s : SchedState} {w : WorkerID} {r : ObjRef} (h : ot.length ≤ r) :
    dispatch_event ft ot s (.pull w r) = none := by
  rw [dispatch_event, List.getElem?_eq_none h]

/-! ### Claim theorems -/

/-- C1.  Dispatch safety: whenever handling a scheduler event emits
`INVOKE(J)` to worker `W`, at that moment the binary search for `W` in
`FunctionTable[J.name]` succeeds (so `W` is in the worker set stored for
`J`'s function) and `can_run` certified that every argument of `J` has a
non-empty holder set in the object table; and when no pairing exists, the
worker (respectively the call) is appended to its queue and no directive at
all is emitted. -/
theorem dispatch_safety :
    (∀ (ft : FnTable) (ot : ObjTable) (s : SchedState) (e : Event)
      (s' : SchedState) (ds : List Directive) (W : WorkerID) (J : Call),
      dispatch_event ft ot s e = some (s', ds) →
      Directive.invoke W J ∈ ds →
      ∃ v, fnLookup ft J.name = some v ∧ W ∈ v ∧
        (∃ j, binary_search v W = .ok j) ∧
        can_run J.args ot = some true ∧
        ∀ a ∈ J.args, ∃ h, ot[a]? = some h ∧ h ≠ []) ∧
    (∀ (ft : FnTable) (ot : ObjTable) (s : SchedState) (id : WorkerID),
      find_next_job ft ot id s.job_queue = some none →
      dispatch_event ft ot s (.worker id) =
        some ({ s with worker_queue := s.worker_queue ++ [id] }, [])) ∧
    (∀ (ft : FnTable) (ot : ObjTable) (s : SchedState) (c : Call),
      find_next_worker ft ot c s.worker_queue = some none →
      dispatch_event ft ot s (.job c) =
        some ({ s with job_queue := s.job_queue ++ [c] }, [])) := by
  refine ⟨?_, ?_, ?_⟩
  · intro ft ot s e s' ds W J h hmem
    cases e with
    | worker id =>
      rcases dispatch_event_worker_inv h with
        ⟨i, job, q, hf, hsw, hs', hds⟩ | ⟨hf, hs', hds⟩
      · subst hds
        rcases List.mem_singleton.mp hmem with heq
        injection heq with hW hJ
        subst hW
        subst hJ
        obtain ⟨-, job', v, hget, hfn, ⟨j, hbs⟩, hcr⟩ :=
          find_next_job_go_found s.job_queue 0 i hf
        rw [Nat.sub_zero] at hget
        obtain ⟨hget', -⟩ := swap_front_remove_eq hsw
        rw [hget] at hget'
        injection hget' with hjob
        subst hjob
        refine ⟨v, hfn, binary_search_ok_mem hbs, ⟨j, hbs⟩, hcr, ?_⟩
        exact can_run_eq_true.mp hcr
      · subst hds
        exact absurd hmem (List.not_mem_nil _)
    | job c =>
      rcases dispatch_event_job_inv h with
        ⟨i, w, q, hf, hsw, hs', hds⟩ | ⟨hf, hs', hds⟩
      · subst hds
        rcases List.mem_singleton.mp hmem with heq
        injection heq with hW hJ
        subst hW
        subst hJ
        obtain ⟨-, w', v, hget, hfn, ⟨j, hbs⟩, hcr⟩ :=
          find_next_worker_go_found s.worker_queue 0 i hf
        rw [Nat.sub_zero] at hget
        obtain ⟨hget', -⟩ := swap_front_remove_eq hsw
        rw [hget] at hget'
        injection hget' with hw
        subst hw
        refine ⟨v, hfn, binary_search_ok_mem hbs, ⟨j, hbs⟩, hcr, ?_⟩
        exact can_run_eq_true.mp hcr
      · subst hds
        exact absurd hmem (List.not_mem_nil _)
    | obj r =>
      rw [dispatch_event_obj_eq] at h
      injection h with h
      injection h with h1 h2
      subst h2
      obtain ⟨p, -, hp⟩ := List.mem_map.mp hmem
      exact Directive.noConfusion hp
    | pull w r =>
      rw [dispatch_event] at h
      rcases hget : ot[r]? with - | holders
      · rw [hget] at h
        exact Option.noConfusion h
      · simp only [hget] at h
        by_cases hlen : holders.length > 0
        · rw [if_pos hlen] at h
          injection h with h
          injection h with h1 h2
          subst h2
          rcases List.mem_singleton.mp hmem with heq
          exact Directive.noConfusion heq
        · rw [if_neg hlen] at h
          injection h with h
          injection h with h1 h2
          subst h2
          exact absurd hmem (List.not_mem_nil _)
  · intro ft ot s id hf
    rw [dispatch_event]
    simp only [hf]
  · intro ft ot s c hf
    rw [dispatch_event]
    simp only [hf]

/-- C2.  Pull fulfilment: an available object is served immediately (state,
and in particular `pull_queue`, unchanged), an unavailable one defers the
request to the back of `pull_queue` with no directive; and every deferred
entry `(w, r)` of `pull_queue` produces a `PULL` directive to `w` when
`Obj(r)` is handled. -/
theorem pull_fulfilment :
    (∀ (ft : FnTable) (ot : ObjTable) (s : SchedState) (w : WorkerID)
      (r : ObjRef) (holders : List WorkerID),
      ot[r]? = some holders → holders ≠ [] →
      dispatch_event ft ot s (.pull w r) = some (s, [.pull w r])) ∧
    (∀ (ft : FnTable) (ot : ObjTable) (s : SchedState) (w : WorkerID)
      (r : ObjRef) (holders : List WorkerID),
      ot[r]? = some holders → holders = [] →
      dispatch_event ft ot s (.pull w r) =
        some ({ s with pull_queue := s.pull_queue ++ [(w, r)] }, [])) ∧
    (∀ (ft : FnTable) (ot : ObjTable) (s : SchedState) (w : WorkerID)
      (r : ObjRef) (s' : SchedState) (ds : List Directive),
      (w, r) ∈ s.pull_queue →
      dispatch_event ft ot s (.obj r) = some (s', ds) →
      Directive.pull w r ∈ ds) := by
  refine ⟨fun ft ot s w r holders hget hne => dispatch_event_pull_hit hget hne,
    fun ft ot s w r holders hget hnil => dispatch_event_pull_miss hget hnil,
    ?_⟩
  intro ft ot s w r s' ds hmem h
  rw [dispatch_event_obj_eq] at h
  injection h with h
  injection h with h1 h2
  subst h2
  refine List.mem_map.mpr ⟨(w, r), ?_, rfl⟩
  exact List.mem_filter.mpr ⟨hmem, by simp⟩

/-- C3.  Frame effect of `Obj(newref)`: handling it leaves all three queues
(in particular `pull_queue`) untouched — matched entries are not removed —
so handling a second `Obj(newref)` from the resulting state emits the PULL
directive to the same deferred worker again. -/
theorem obj_leaves_pull_queue :
    (∀ (ft : FnTable) (ot : ObjTable) (s : SchedState) (r : ObjRef)
      (s' : SchedState) (ds : List Directive),
      dispatch_event ft ot s (.obj r) = some (s', ds) →
      s'.pull_queue = s.pull_queue ∧ s'.worker_queue = s.worker_queue ∧
        s'.job_queue = s.job_queue) ∧
    (∀ (ft : FnTable) (ot : ObjTable) (s : SchedState) (r : ObjRef)
      (w : WorkerID) (s' : SchedState) (ds : List Directive)
      (s'' : SchedState) (ds' : List Directive),
      (w, r) ∈ s.pull_queue →
      dispatch_event ft ot s (.obj r) = some (s', ds) →
      dispatch_event ft ot s' (.obj r) = some (s'', ds') →
      Directive.pull w r ∈ ds ∧ Directive.pull w r ∈ ds') := by
  constructor
  · intro ft ot s r s' ds h
    rw [dispatch_event_obj_eq] at h
    injection h with h
    injection h with h1 h2
    rw [← h1]
    exact ⟨rfl, rfl, rfl⟩
  · intro ft ot s r w s' ds s'' ds' hmem h h'
    rw [dispatch_event_obj_eq] at h
    injection h with h
    injection h with h1 h2
    subst h2
    have hm1 : Directive.pull w r ∈
        (s.pull_queue.filter (fun p => p.2 = r)).map
          (fun p => Directive.pull p.1 p.2) :=
      List.mem_map.mpr ⟨(w, r), List.mem_filter.mpr ⟨hmem, by simp⟩, rfl⟩
    refine ⟨hm1, ?_⟩
    rw [dispatch_event_obj_eq] at h'
    injection h' with h'
    injection h' with h1' h2'
    subst h2'
    refine List.mem_map.mpr ⟨(w, r), List.mem_filter.mpr ⟨?_, by simp⟩, rfl⟩
    rw [← h1]
    exact hmem

/-- C4 (amended).  Queue shape after a dispatch: removal uses
`swap_front_remove`, which moves the front element into the vacated slot, so
the remaining elements are a permutation of the queue with the matched index
erased, and arrival (FIFO) order is preserved exactly when the matched index
is 0 or 1 — not in general.  The queue not involved in the match is left
unchanged. -/
theorem queue_shape_after_dispatch :
    (∀ (α : Type) (q : List α) (i : Nat) (x : α) (q' : List α),
      swap_front_remove q i = some (x, q') →
      q'.Perm (q.eraseIdx i) ∧ (i ≤ 1 → q' = q.eraseIdx i)) ∧
    (∀ (ft : FnTable) (ot : ObjTable) (s : SchedState) (id : WorkerID)
      (s' : SchedState) (ds : List Directive),
      dispatch_event ft ot s (.worker id) = some (s', ds) → ds ≠ [] →
      s'.worker_queue = s.worker_queue ∧
      ∃ i job, find_next_job ft ot id s.job_queue = some (some i) ∧
        swap_front_remove s.job_queue i = some (job, s'.job_queue) ∧
        s'.job_queue.Perm (s.job_queue.eraseIdx i) ∧
        (i ≤ 1 → s'.job_queue = s.job_queue.eraseIdx i)) ∧
    (∀ (ft : FnTable) (ot : ObjTable) (s : SchedState) (c : Call)
      (s' : SchedState) (ds : List Directive),
      dispatch_event ft ot s (.job c) = some (s', ds) → ds ≠ [] →
      s'.job_queue = s.job_queue ∧
      ∃ i w, find_next_worker ft ot c s.worker_queue = some (some i) ∧
        swap_front_remove s.worker_queue i = some (w, s'.worker_queue) ∧
        s'.worker_queue.Perm (s.worker_queue.eraseIdx i) ∧
        (i ≤ 1 → s'.worker_queue = s.worker_queue.eraseIdx i)) := by
  refine ⟨fun α q i x q' h => swap_front_remove_perm h, ?_, ?_⟩
  · intro ft ot s id s' ds h hds
    rcases dispatch_event_worker_inv h with
      ⟨i, job, q, hf, hsw, hs', hds'⟩ | ⟨hf, hs', hds'⟩
    · subst hs'
      obtain ⟨hperm, hord⟩ := swap_front_remove_perm hsw
      exact ⟨rfl, i, job, hf, hsw, hperm, hord⟩
    · exact absurd hds' hds
  · intro ft ot s c s' ds h hds
    rcases dispatch_event_job_inv h with
      ⟨i, w, q, hf, hsw, hs', hds'⟩ | ⟨hf, hs', hds'⟩
    · subst hs'
      obtain ⟨hperm, hord⟩ := swap_front_remove_perm hsw
      exact ⟨rfl, i, w, hf, hsw, hperm, hord⟩
    · exact absurd hds' hds

/-- C5.  `deliver_object`: a no-op when the target already holds the object;
otherwise, given a non-empty holder set (and the in-range sample the `rand`
range guarantees, and a registered target), exactly one DELIVER directive is
published, addressed to a holder drawn from the holder set, carrying the
object reference and the target's address; the empty-range panic branch is
unreachable under the non-empty-holder precondition. -/
theorem deliver_object_contract :
    (∀ (w : WorkerID) (r : ObjRef) (workers : List String) (ot : ObjTable)
      (sample : Nat) (holders : List WorkerID),
      ot[r]? = some holders → w ∈ holders →
      deliver_object w r workers ot sample = some []) ∧
    (∀ (w : WorkerID) (r : ObjRef) (workers : List String) (ot : ObjTable)
      (sample : Nat) (holders : List WorkerID),
      ot[r]? = some holders → w ∉ holders → holders ≠ [] →
      sample < holders.length → w < workers.length →
      ∃ pullid addr, holders[sample]? = some pullid ∧ pullid ∈ holders ∧
        workers[w]? = some addr ∧
        deliver_object w r workers ot sample = some [⟨pullid, r, addr⟩]) := by
  constructor
  · intro w r workers ot sample holders hget hmem
    rw [deliver_object]
    simp only [hget]
    rw [if_pos hmem]
  · intro w r workers ot sample holders hget hmem hne hsample hw
    obtain ⟨pullid, hpull⟩ : ∃ p, holders[sample]? = some p :=
      ⟨_, List.getElem?_eq_getElem hsample⟩
    obtain ⟨addr, haddr⟩ : ∃ a, workers[w]? = some a :=
      ⟨_, List.getElem?_eq_getElem hw⟩
    have hpmem : pullid ∈ holders := by
      obtain ⟨hb, hbe⟩ := List.getElem?_eq_some.mp hpull
      exact hbe ▸ List.getElem_mem hb
    refine ⟨pullid, addr, hpull, hpmem, haddr, ?_⟩
    rw [deliver_object]
    simp only [hget]
    rw [if_neg hmem,
      if_neg (fun hc : holders.length = 0 => hne (List.length_eq_zero.mp hc))]
    simp only [hpull, haddr]

theorem send_function_call_lt {workers : List Chan} {workerid : WorkerID}
    (job : Call) (h : workerid < workers.length) :
    send_function_call workers workerid job =
      some (.invoke workerid job) := by
  rw [send_function_call, if_pos h]

theorem send_pull_request_lt {workers : List Chan} {workerid : WorkerID}
    (objref : ObjRef) (h : workerid < workers.length) :
    send_pull_request workers workerid objref =
      some (.pull workerid objref) := by
  rw [send_pull_request, if_pos h]

theorem send_pull_request_oob {workers : List Chan} {workerid : WorkerID}
    (objref : ObjRef) (h : workers.length ≤ workerid) :
    send_pull_request workers workerid objref = none := by
  rw [send_pull_request, if_neg (Nat.not_lt.mpr h)]

/-- The `Event::Obj` send loop cannot panic when every matching deferred
entry names a registered channel. -/
theorem send_pull_matches_total (workers : List Chan) (r : ObjRef) :
    ∀ q : List (WorkerID × ObjRef),
      (∀ p ∈ q, p.2 = r → p.1 < workers.length) →
      (send_pull_matches workers r q).isSome := by
  intro q
  induction q with
  | nil => intro h; rfl
  | cons p rest ih =>
    intro h
    obtain ⟨w, objref⟩ := p
    rw [send_pull_matches]
    by_cases hr : objref = r
    · rw [if_pos hr]
      have hw : w < workers.length := h (w, objref) (List.mem_cons_self _ _) hr
      rw [send_pull_request_lt objref hw]
      have htot := ih (fun p hp => h p (List.mem_cons_of_mem _ hp))
      rcases hm : send_pull_matches workers r rest with - | ds
      · rw [hm] at htot
        exact Bool.noConfusion htot
      · rfl
    · rw [if_neg hr]
      exact ih (fun p hp => h p (List.mem_cons_of_mem _ hp))

/-- C10 (amended).  The availability checks index the object table with no
bounds check: the `Pull` arm panics for any unallocated reference, and
`can_run` panics as soon as it examines an unallocated argument; but a
`Worker`/`Job` event whose queued call carries an unallocated reference does
not panic when the guard short-circuits (capability mismatch or an earlier
empty holder set).  Directive emission itself indexes the per-worker channel
vector unchecked, so even a pull of an allocated, held object panics when
the destination worker id has no registered channel.  The handlers are
total under the precondition that every examined object reference is
allocated, every scanned call's name is registered, and every worker id the
arm can send to has a registered channel. -/
theorem oob_reference_panics :
    (∀ (ft : FnTable) (ot : ObjTable) (s : DispatchState) (w : WorkerID)
      (r : ObjRef), ot.length ≤ r →
      dispatch_event_ch ft ot s (.pull w r) = none) ∧
    (∀ (ot : ObjTable) (a : ObjRef) (rest : List ObjRef), ot.length ≤ a →
      can_run (a :: rest) ot = none) ∧
    (∀ (ft : FnTable) (ot : ObjTable) (s : DispatchState) (w : WorkerID)
      (r : ObjRef) (holders : List WorkerID),
      ot[r]? = some holders → 0 < holders.length → s.workers.length ≤ w →
      dispatch_event_ch ft ot s (.pull w r) = none) ∧
    (∀ (ft : FnTable) (ot : ObjTable) (s : DispatchState) (id : WorkerID),
      (∀ job ∈ s.job_queue, (fnLookup ft job.name).isSome ∧
        ∀ a ∈ job.args, a < ot.length) →
      id < s.workers.length →
      (dispatch_event_ch ft ot s (.worker id)).isSome) ∧
    (∀ (ft : FnTable) (ot : ObjTable) (s : DispatchState) (c : Call),
      (fnLookup ft c.name).isSome → (∀ a ∈ c.args, a < ot.length) →
      (∀ w ∈ s.worker_queue, w < s.workers.length) →
      (dispatch_event_ch ft ot s (.job c)).isSome) ∧
    (∀ (ft : FnTable) (ot : ObjTable) (s : DispatchState) (w : WorkerID)
      (r : ObjRef), r < ot.length → w < s.workers.length →
      (dispatch_event_ch ft ot s (.pull w r)).isSome) ∧
    (∀ (ft : FnTable) (ot : ObjTable) (s : DispatchState) (r : ObjRef),
      (∀ p ∈ s.pull_queue, p.2 = r → p.1 < s.workers.length) →
      (dispatch_event_ch ft ot s (.obj r)).isSome) := by
  refine ⟨?_, fun ot a rest h => can_run_oob_head rest h, ?_, ?_, ?_, ?_, ?_⟩
  · intro ft ot s w r h
    rw [dispatch_event_ch, List.getElem?_eq_none h]
  · intro ft ot s w r holders hget hlen hw
    rw [dispatch_event_ch]
    simp only [hget]
    rw [if_pos hlen, send_pull_request_oob r hw]
  · intro ft ot s id hq hid
    rw [dispatch_event_ch]
    have htot : (find_next_job_go ft ot id s.job_queue 0).isSome = true :=
      find_next_job_go_total s.job_queue 0 hq
    rcases hf : find_next_job ft ot id s.job_queue with - | r
    · rw [find_next_job] at hf
      rw [hf] at htot
      exact Bool.noConfusion htot
    · rcases r with - | i
      · rfl
      · simp only []
        obtain ⟨-, job, v, hget, -⟩ := find_next_job_go_found s.job_queue 0 i hf
        rw [Nat.sub_zero] at hget
        rw [swap_front_remove, hget]
        simp only []
        rw [send_function_call_lt job hid]
        rfl
  · intro ft ot s c hfn hargs hwq
    rw [dispatch_event_ch]
    have htot := find_next_worker_go_total hfn hargs s.worker_queue 0
    rcases hf : find_next_worker ft ot c s.worker_queue with - | r
    · rw [find_next_worker] at hf
      rw [hf] at htot
      exact Bool.noConfusion htot
    · rcases r with - | i
      · rfl
      · simp only []
        obtain ⟨-, w, v, hget, -⟩ :=
          find_next_worker_go_found s.worker_queue 0 i hf
        rw [Nat.sub_zero] at hget
        have hwlt : w < s.workers.length := by
          obtain ⟨hb, hbe⟩ := List.getElem?_eq_some.mp hget
          exact hwq w (hbe ▸ List.getElem_mem hb)
        rw [swap_front_remove, hget]
        simp only []
        rw [send_function_call_lt c hwlt]
        rfl
  · intro ft ot s w r h hw
    obtain ⟨holders, hget⟩ : ∃ hs, ot[r]? = some hs :=
      ⟨_, List.getElem?_eq_getElem h⟩
    rw [dispatch_event_ch]
    simp only [hget]
    change (if holders.length > 0 then _ else _ :
      Option (DispatchState × List Directive)).isSome = true
    by_cases hlen : holders.length > 0
    · rw [if_pos hlen, send_pull_request_lt r hw]
      rfl
    · rw [if_neg hlen]
      rfl
  · intro ft ot s r hq
    rw [dispatch_event_ch]
    have htot := send_pull_matches_total s.workers r s.pull_queue hq
    rcases hm : send_pull_matches s.workers r s.pull_queue with - | ds
    · rw [hm] at htot
      exact Bool.noConfusion htot
    · rfl

theorem tableSorted_foldl (msgs : List (WorkerID × String)) :
    ∀ t, TableSorted t →
      TableSorted (msgs.foldl (fun t m => register_function t m.1 m.2) t) := by
  induction msgs with
  | nil => intro t h; exact h
  | cons m rest ih =>
    intro t h
    rw [List.foldl_cons]
    exact ih _ (register_function_preserves_sorted h m.1 m.2)

/-- The amended precondition of C7: whatever the table stores for `f` is
strictly sorted (the data-model invariant the server maintains). -/
def EntrySorted (t : FnTable) (f : String) : Prop :=
  ∀ v, fnLookup t f = some v → List.Pairwise (· < ·) v

/-- C6.  Starting from the empty table, any sequence of REGISTER_FUNCTION
messages leaves every stored set strictly increasing (sorted with no
duplicates); and a single insertion preserves the invariant from any sorted
table. -/
theorem fntable_strictly_increasing :
    (∀ (msgs : List (WorkerID × String)) (f : String) (v : List WorkerID),
      fnLookup (msgs.foldl (fun t m => register_function t m.1 m.2) []) f =
        some v →
      List.Pairwise (· < ·) v) ∧
    (∀ (t : FnTable), TableSorted t → ∀ (w : WorkerID) (f : String),
      TableSorted (register_function t w f)) := by
  constructor
  · intro msgs f v hv
    exact tableSorted_foldl msgs [] tableSorted_nil f v hv
  · intro t h w f
    exact register_function_preserves_sorted h w f

/-- C7 (amended).  Registration is idempotent from any starting table whose
entry at the registered name is strictly sorted — the invariant the server
maintains; processing `REGISTER_FUNCTION(w, f)` twice then leaves the whole
table (in particular `FunctionTable[f]`) identical to processing it once. -/
theorem register_function_idempotent :
    ∀ (t : FnTable) (w : WorkerID) (f : String), EntrySorted t f →
      register_function (register_function t w f) w f =
        register_function t w f := by
  intro t w f hsort
  have hv0 : List.Pairwise (· < ·) ((fnLookup t f).getD []) := by
    rcases hcur : fnLookup t f with - | v
    · exact List.Pairwise.nil
    · rw [Option.getD_some]
      exact hsort v hcur
  have hl1 : fnLookup (register_function t w f) f =
      some (insert_result ((fnLookup t f).getD []) w) :=
    register_function_lookup_self t w f
  exact register_function_noop hl1 (insert_result_sorted hv0)
    (insert_result_mem hv0)

/-! ### Broadcast framing -/

theorem decimal_digits_go_length :
    ∀ n, ∀ (k : Nat) (acc : List Nat), n < 10 ^ k →
      (decimal_digits_go n acc).length ≤ k + acc.length := by
  intro n
  induction n using Nat.strong_induction_on with
  | _ n IH =>
    intro k acc hlt
    rw [decimal_digits_go]
    by_cases h0 : n = 0
    · rw [if_pos h0]
      omega
    · rw [if_neg h0]
      rcases k with - | k'
      · rw [pow_zero] at hlt
        omega
      · have hdiv : n / 10 < 10 ^ k' := by
          rw [Nat.div_lt_iff_lt_mul (by norm_num)]
          calc n < 10 ^ (k' + 1) := hlt
          _ = 10 ^ k' * 10 := by rw [pow_succ]
        have hrec := IH (n / 10)
          (Nat.div_lt_self (Nat.pos_of_ne_zero h0) (by norm_num))
          k' ((48 + n % 10) :: acc) hdiv
        rw [List.length_cons] at hrec
        omega

theorem decimal_bytes_length_le {w : Nat} (h : w < 10 ^ 7) :
    (decimal_bytes w).length ≤ 7 := by
  rw [decimal_bytes]
  by_cases h0 : w = 0
  · rw [if_pos h0]
    simp
  · rw [if_neg h0]
    simpa using decimal_digits_go_length w 7 [] h

theorem pad7_length {w : Nat} (h : w < 10 ^ 7) :
    (List.replicate (7 - (decimal_bytes w).length) 48 ++
      decimal_bytes w).length = 7 := by
  rw [List.length_append, List.length_replicate]
  have := decimal_bytes_length_le h
  omega

/-- C8 (amended).  For every worker id below `10^7`, the published frame is
exactly the 7-byte zero-padded decimal representation of the id followed by
the message bytes, so the body begins at byte offset 7; ids of eight or more
decimal digits produce a longer prefix (the unpadded decimal), shifting the
body. -/
theorem broadcast_framing :
    ∀ (w : WorkerID) (msg : List Nat), w < 10 ^ 7 →
      (publish_frame w msg).take 7 =
        List.replicate (7 - (decimal_bytes w).length) 48 ++ decimal_bytes w ∧
      ((publish_frame w msg).take 7).length = 7 ∧
      (publish_frame w msg).drop 7 = msg := by
  intro w msg h
  have hlen := pad7_length h
  have htake : (publish_frame w msg).take 7 =
      List.replicate (7 - (decimal_bytes w).length) 48 ++ decimal_bytes w := by
    rw [publish_frame]
    exact List.take_left' hlen
  refine ⟨htake, ?_, ?_⟩
  · rw [htake]
    exact hlen
  · rw [publish_frame]
    exact List.drop_left' hlen

/-! ### args_to_send -/

/-- Functional reading of the dedup-and-filter loop on the sorted scratch
vector: process the list left to right carrying the previously seen element;
an element equal to it is skipped, otherwise it is kept when `absent`
holds. -/
def dedup_absent (absent : ObjRef → Bool) : Option ObjRef → List ObjRef → List ObjRef
  | _, [] => []
  | prev, a :: rest =>
    if prev = some a then dedup_absent absent (some a) rest
    else if absent a then a :: dedup_absent absent (some a) rest
    else dedup_absent absent (some a) rest

theorem take_succ_set {α : Type} :
    ∀ (l : List α) (curr : Nat) (a : α), curr < l.length →
      (l.set curr a).take (curr + 1) = l.take curr ++ [a] := by
  intro l
  induction l with
  | nil => intro curr a h; exact absurd h (by simp)
  | cons x t ih =>
    intro curr a h
    rcases curr with - | c
    · rw [List.set_cons_zero]
      rfl
    · rw [List.set_cons_succ, List.take_succ_cons, List.take_succ_cons,
        List.cons_append]
      rw [ih c a (by rw [List.length_cons] at h; omega)]

theorem getD_set_of_ne {α : Type} {l : List α} {m j : Nat} {x d : α}
    (h : m ≠ j) : (l.set m x).getD j d = l.getD j d := by
  rw [List.getD_eq_getElem?_getD, List.getD_eq_getElem?_getD,
    List.getElem?_set, if_neg h]

/-- The loop of `args_to_send` computes, next to the already-committed
prefix, the functional dedup-and-filter of the not-yet-visited suffix of the
(unmutated) sorted vector; the write position never catches up with the read
position, so each read of `scratch[i]` and `scratch[i-1]` still sees the
sorted values. -/
theorem args_to_send_loop_eq (absent : ObjRef → Bool) :
    ∀ (fuel : Nat) (orig scratch : List ObjRef) (curr i : Nat),
      scratch.length = orig.length →
      fuel + i = orig.length →
      curr ≤ i →
      (∀ j, i ≤ j + 1 → scratch.getD j 0 = orig.getD j 0) →
      args_to_send_loop absent fuel scratch curr i =
        scratch.take curr ++
          dedup_absent absent
            (if i = 0 then none else some (orig.getD (i - 1) 0))
            (orig.drop i) := by
  intro fuel
  induction fuel with
  | zero =>
    intro orig scratch curr i hlen hfi hci hsuf
    rw [args_to_send_loop]
    rw [List.drop_eq_nil_of_le (by omega)]
    rw [dedup_absent]
    rw [List.append_nil]
  | succ fuel ih =>
    intro orig scratch curr i hlen hfi hci hsuf
    have hi : i < orig.length := by omega
    have hsc : i < scratch.length := by omega
    have harg : scratch.getD i 0 = orig.getD i 0 := hsuf i (by omega)
    have hdrop : orig.drop i = orig.getD i 0 :: orig.drop (i + 1) := by
      rw [List.getD_eq_getElem orig 0 hi]
      exact List.drop_eq_getElem_cons hi
    simp only [args_to_send_loop]
    by_cases hskip : 0 < i ∧ scratch.getD i 0 = scratch.getD (i - 1) 0
    · rw [if_pos hskip]
      rw [ih orig scratch curr (i + 1) hlen (by omega) (by omega)
        (fun j hj => hsuf j (by omega))]
      rw [if_neg (show ¬ i + 1 = 0 by omega), Nat.add_sub_cancel]
      have hprev : scratch.getD (i - 1) 0 = orig.getD (i - 1) 0 :=
        hsuf (i - 1) (by omega)
      have hcond : (if i = 0 then none else some (orig.getD (i - 1) 0)) =
          some (orig.getD i 0) := by
        rw [if_neg (show ¬ i = 0 by omega)]
        rw [← hprev, ← hskip.2, harg]
      rw [hdrop, dedup_absent, if_pos hcond]
    · rw [if_neg hskip]
      have hne : (if i = 0 then none else some (orig.getD (i - 1) 0)) ≠
          some (orig.getD i 0) := by
        by_cases h0 : i = 0
        · rw [if_pos h0]
          exact fun hc => Option.noConfusion hc
        · rw [if_neg h0]
          intro hc
          injection hc with hc
          have hprev : scratch.getD (i - 1) 0 = orig.getD (i - 1) 0 :=
            hsuf (i - 1) (by omega)
          exact hskip ⟨by omega, by rw [harg, hprev, hc]⟩
      by_cases habs : absent (scratch.getD i 0)
      · rw [if_pos habs]
        rw [ih orig (scratch.set curr (scratch.getD i 0)) (curr + 1) (i + 1)
          (by rw [List.length_set]; exact hlen) (by omega) (by omega)
          (fun j hj => by
            by_cases hcj : curr = j
            · subst hcj
              have hji : curr = i := by omega
              rw [List.getD_eq_getElem?_getD, List.getElem?_set, if_pos rfl,
                if_pos (show curr < scratch.length by omega), Option.getD_some,
                harg, hji]
            · rw [getD_set_of_ne hcj]
              exact hsuf j (by omega))]
        rw [take_succ_set scratch curr _ (by omega)]
        rw [if_neg (show ¬ i + 1 = 0 by omega), Nat.add_sub_cancel]
        rw [hdrop, dedup_absent, if_neg hne,
          if_pos (show absent (orig.getD i 0) = true by rw [← harg]; exact habs)]
        rw [List.append_assoc, List.singleton_append, harg]
      · rw [if_neg habs]
        rw [ih orig scratch curr (i + 1) hlen (by omega) (by omega)
          (fun j hj => hsuf j (by omega))]
        rw [if_neg (show ¬ i + 1 = 0 by omega), Nat.add_sub_cancel]
        rw [hdrop, dedup_absent, if_neg hne,
          if_neg (show ¬ absent (orig.getD i 0) = true by rw [← harg]; exact habs)]

/-- `args_to_send` is the functional dedup-and-filter of the sorted copy of
the arguments. -/
theorem args_to_send_eq (args : List ObjRef) (absent : ObjRef → Bool) :
    args_to_send args absent =
      dedup_absent absent none (List.insertionSort (· ≤ ·) args) := by
  rw [args_to_send]
  rw [args_to_send_loop_eq absent (List.insertionSort (· ≤ ·) args).length
    (List.insertionSort (· ≤ ·) args) (List.insertionSort (· ≤ ·) args) 0 0
    rfl (by omega) (Nat.le_refl 0) (fun j hj => rfl)]
  rw [List.take_zero, List.drop_zero, List.nil_append, if_pos rfl]

/-- Membership in the dedup-and-filter of a (weakly) sorted list: exactly
the elements satisfying `absent`, except the carried previous element. -/
theorem dedup_absent_mem (absent : ObjRef → Bool) :
    ∀ (l : List ObjRef) (prev : Option ObjRef),
      List.Pairwise (· ≤ ·) l →
      (∀ p, prev = some p → ∀ x ∈ l, p ≤ x) →
      ∀ x, x ∈ dedup_absent absent prev l ↔
        (absent x = true ∧ x ∈ l ∧ prev ≠ some x) := by
  intro l
  induction l with
  | nil =>
    intro prev hpw hprev x
    rw [dedup_absent]
    simp
  | cons a rest ih =>
    intro prev hpw hprev x
    obtain ⟨hhead, hrest⟩ := List.pairwise_cons.mp hpw
    have hnext : ∀ p, some a = some p → ∀ y ∈ rest, p ≤ y := by
      intro p hp y hy
      injection hp with hp
      subst hp
      exact hhead y hy
    rw [dedup_absent]
    by_cases hpa : prev = some a
    · rw [if_pos hpa, ih (some a) hrest hnext x]
      subst hpa
      constructor
      · rintro ⟨h1, h2, h3⟩
        exact ⟨h1, List.mem_cons_of_mem a h2, h3⟩
      · rintro ⟨h1, h2, h3⟩
        by_cases hxa : x = a
        · exact absurd (by rw [hxa]) h3
        · exact ⟨h1, (List.mem_cons.mp h2).resolve_left hxa,
            fun hc => hxa (Option.some.inj hc).symm⟩
    · rw [if_neg hpa]
      by_cases habs : absent a = true
      · rw [if_pos habs]
        rw [List.mem_cons, ih (some a) hrest hnext x]
        constructor
        · rintro (rfl | ⟨h1, h2, h3⟩)
          · exact ⟨habs, List.mem_cons_self _ _, fun hc => hpa hc⟩
          · refine ⟨h1, List.mem_cons_of_mem a h2, ?_⟩
            intro hc
            have hxa : x ≤ a := hprev x hc a (List.mem_cons_self a rest)
            have hax : a ≤ x := hhead x h2
            exact h3 (by rw [Nat.le_antisymm hax hxa])
        · rintro ⟨h1, h2, h3⟩
          by_cases hxa : x = a
          · exact Or.inl hxa
          · exact Or.inr ⟨h1, (List.mem_cons.mp h2).resolve_left hxa,
              fun hc => hxa (Option.some.inj hc).symm⟩
      · rw [if_neg habs, ih (some a) hrest hnext x]
        constructor
        · rintro ⟨h1, h2, h3⟩
          refine ⟨h1, List.mem_cons_of_mem a h2, ?_⟩
          intro hc
          have hxa : x ≤ a := hprev x hc a (List.mem_cons_self a rest)
          have hax : a ≤ x := hhead x h2
          exact h3 (by rw [Nat.le_antisymm hax hxa])
        · rintro ⟨h1, h2, h3⟩
          by_cases hxa : x = a
          · subst hxa
            exact absurd h1 habs
          · exact ⟨h1, (List.mem_cons.mp h2).resolve_left hxa,
              fun hc => hxa (Option.some.inj hc).symm⟩

/-- The dedup-and-filter of a (weakly) sorted list is strictly sorted, and
bounded below by the carried previous element. -/
theorem dedup_absent_sorted (absent : ObjRef → Bool) :
    ∀ (l : List ObjRef) (prev : Option ObjRef),
      List.Pairwise (· ≤ ·) l →
      (∀ p, prev = some p → ∀ x ∈ l, p ≤ x) →
      List.Pairwise (· < ·) (dedup_absent absent prev l) ∧
      (∀ p, prev = some p → ∀ y ∈ dedup_absent absent prev l, p < y) := by
  intro l
  induction l with
  | nil =>
    intro prev hpw hprev
    rw [dedup_absent]
    exact ⟨List.Pairwise.nil, fun p hp y hy => absurd hy (List.not_mem_nil y)⟩
  | cons a rest ih =>
    intro prev hpw hprev
    obtain ⟨hhead, hrest⟩ := List.pairwise_cons.mp hpw
    have hnext : ∀ p, some a = some p → ∀ y ∈ rest, p ≤ y := by
      intro p hp y hy
      injection hp with hp
      subst hp
      exact hhead y hy
    obtain ⟨hp', hgt'⟩ := ih (some a) hrest hnext
    rw [dedup_absent]
    by_cases hpa : prev = some a
    · rw [if_pos hpa]
      refine ⟨hp', ?_⟩
      intro p hp y hy
      rw [hpa] at hp
      exact (Option.some.inj hp) ▸ hgt' a rfl y hy
    · rw [if_neg hpa]
      by_cases habs : absent a = true
      · rw [if_pos habs]
        constructor
        · rw [List.pairwise_cons]
          exact ⟨fun y hy => hgt' a rfl y hy, hp'⟩
        · intro p hp y hy
          have hpla : p < a := by
            have hple : p ≤ a := hprev p hp a (List.mem_cons_self a rest)
            have hne : p ≠ a := fun hc => hpa (by rw [hp, hc])
            exact Nat.lt_of_le_of_ne hple hne
          rcases List.mem_cons.mp hy with rfl | hy'
          · exact hpla
          · exact Nat.lt_trans hpla (hgt' a rfl y hy')
      · rw [if_neg habs]
        refine ⟨hp', ?_⟩
        intro p hp y hy
        have hple : p ≤ a := hprev p hp a (List.mem_cons_self a rest)
        exact Nat.lt_of_le_of_lt hple (hgt' a rfl y hy)

/-- C9.  `args_to_send` returns a strictly sorted (hence duplicate-free)
vector holding exactly the arguments on which `absent` holds; on the
recorded test input `[1,4,5,5,2,2,3,3]` with present set `{1,2,4}` it
returns `[3,5]`. -/
theorem args_to_send_spec :
    (∀ (args : List ObjRef) (absent : ObjRef → Bool),
      List.Pairwise (· < ·) (args_to_send args absent)) ∧
    (∀ (args : List ObjRef) (absent : ObjRef → Bool) (x : ObjRef),
      x ∈ args_to_send args absent ↔ (absent x = true ∧ x ∈ args)) ∧
    (args_to_send [1, 4, 5, 5, 2, 2, 3, 3]
      (fun r => decide (r ∉ [1, 2, 4])) = [3, 5]) := by
  have hsorted : ∀ (args : List ObjRef),
      List.Pairwise (· ≤ ·) (List.insertionSort (· ≤ ·) args) :=
    fun args => List.sorted_insertionSort (· ≤ ·) args
  have hnone : ∀ (args : List ObjRef) (p : ObjRef),
      (none : Option ObjRef) = some p →
      ∀ x ∈ List.insertionSort (· ≤ ·) args, p ≤ x :=
    fun args p hp => Option.noConfusion hp
  refine ⟨?_, ?_, by decide⟩
  · intro args absent
    rw [args_to_send_eq]
    exact (dedup_absent_sorted absent _ none (hsorted args) (hnone args)).1
  · intro args absent x
    rw [args_to_send_eq,
      dedup_absent_mem absent _ none (hsorted args) (hnone args) x]
    constructor
    · rintro ⟨h1, h2, -⟩
      exact ⟨h1, (List.perm_insertionSort (· ≤ ·) args).mem_iff.mp h2⟩
    · rintro ⟨h1, h2⟩
      exact ⟨h1, (List.perm_insertionSort (· ≤ ·) args).mem_iff.mpr h2,
        fun hc => Option.noConfusion hc⟩

/-! ### Concrete witnesses and counterexamples -/

/-- Witness for C1 at a concrete dispatch: worker 0 picks up the queued call
`f(obj 0)` whose argument is held by worker 1. -/
theorem dispatch_safety_witness :
    (dispatch_event [("f", [0])] [[1]] ⟨[], [⟨"f", [0], 1⟩], []⟩ (.worker 0) =
      some (⟨[], [], []⟩, [.invoke 0 ⟨"f", [0], 1⟩])) ∧
    (∃ v, fnLookup [("f", [0])] (Call.mk "f" [0] 1).name = some v ∧ 0 ∈ v ∧
      (∃ j, binary_search v 0 = .ok j) ∧
      can_run (Call.mk "f" [0] 1).args [[1]] = some true ∧
      ∀ a ∈ (Call.mk "f" [0] 1).args,
        ∃ h, ([[1]] : ObjTable)[a]? = some h ∧ h ≠ []) := by
  have hEval : dispatch_event [("f", [0])] [[1]] ⟨[], [⟨"f", [0], 1⟩], []⟩
      (.worker 0) = some (⟨[], [], []⟩, [.invoke 0 ⟨"f", [0], 1⟩]) := by
    simp [dispatch_event, find_next_job, find_next_job_go, fnLookup,
      binary_search, binary_search_go, can_run, swap_front_remove]
  exact ⟨hEval, dispatch_safety.1 _ _ _ _ _ _ 0 _ hEval
    (List.mem_singleton.mpr rfl)⟩

/-- Witness for C2: object 0 is held by worker 2, so a pull from worker 3 is
served immediately with the state unchanged. -/
theorem pull_fulfilment_witness :
    (([[2]] : ObjTable)[0]? = some [2] ∧ ([2] : List WorkerID) ≠ []) ∧
    dispatch_event [] [[2]] ⟨[], [], []⟩ (.pull 3 0) =
      some (⟨[], [], []⟩, [.pull 3 0]) :=
  ⟨⟨rfl, by decide⟩, pull_fulfilment.1 [] [[2]] ⟨[], [], []⟩ 3 0 [2] rfl (by decide)⟩

/-- Witness for C3: entry `(4, 7)` sits in the pull queue, and two
consecutive `Obj(7)` events both emit the PULL directive to worker 4. -/
theorem obj_frame_witness :
    ((4, 7) ∈ ([(4, 7)] : List (WorkerID × ObjRef)) ∧
      dispatch_event [] [] ⟨[], [], [(4, 7)]⟩ (.obj 7) =
        some (⟨[], [], [(4, 7)]⟩, [.pull 4 7])) ∧
    (Directive.pull 4 7 ∈ [Directive.pull 4 7] ∧
      Directive.pull 4 7 ∈ [Directive.pull 4 7]) := by
  have hEval : dispatch_event [] [] ⟨[], [], [(4, 7)]⟩ (.obj 7) =
      some (⟨[], [], [(4, 7)]⟩, [.pull 4 7]) := by
    rw [dispatch_event_obj_eq]
    rfl
  exact ⟨⟨List.mem_singleton.mpr rfl, hEval⟩,
    obj_leaves_pull_queue.2 [] [] ⟨[], [], [(4, 7)]⟩ 7 4 _ _ _ _
      (List.mem_singleton.mpr rfl) hEval hEval⟩

/-- Counterexample for C4: with queued jobs `J0, J1, J2` (arrival order) and
only `J2` runnable by the freed worker, the dispatch removes index 2 by
swap-with-front and leaves `[J1, J0]` — not the arrival order `[J0, J1]`. -/
theorem queue_fifo_cex :
    dispatch_event [("f", [0]), ("g", [1])] []
      ⟨[], [⟨"g", [], 10⟩, ⟨"g", [], 11⟩, ⟨"f", [], 12⟩], []⟩ (.worker 0) =
      some (⟨[], [⟨"g", [], 11⟩, ⟨"g", [], 10⟩], []⟩,
        [.invoke 0 ⟨"f", [], 12⟩]) ∧
    [Call.mk "g" [] 11, Call.mk "g" [] 10] ≠
      [Call.mk "g" [] 10, Call.mk "g" [] 11] := by
  constructor
  · simp [dispatch_event, find_next_job, find_next_job_go, fnLookup,
      binary_search, binary_search_go, can_run, swap_front_remove]
  · decide

/-- Witness for C4 (amended) at a dispatch removing index 0: the remaining
queue is the erasure, FIFO preserved. -/
theorem queue_shape_witness :
    (dispatch_event [("f", [0])] [] ⟨[], [⟨"f", [], 9⟩], []⟩ (.worker 0) =
      some (⟨[], [], []⟩, [.invoke 0 ⟨"f", [], 9⟩]) ∧
      ([Directive.invoke 0 ⟨"f", [], 9⟩] : List Directive) ≠ []) ∧
    (SchedState.worker_queue ⟨[], [], []⟩ = [] ∧
      ∃ i job, find_next_job [("f", [0])] []
          (0 : WorkerID) [Call.mk "f" [] 9] = some (some i) ∧
        swap_front_remove [Call.mk "f" [] 9] i = some (job, []) ∧
        List.Perm [] ((List.eraseIdx [Call.mk "f" [] 9] i)) ∧
        (i ≤ 1 → ([] : List Call) = List.eraseIdx [Call.mk "f" [] 9] i)) := by
  have hEval : dispatch_event [("f", [0])] [] ⟨[], [⟨"f", [], 9⟩], []⟩
      (.worker 0) = some (⟨[], [], []⟩, [.invoke 0 ⟨"f", [], 9⟩]) := by
    simp [dispatch_event, find_next_job, find_next_job_go, fnLookup,
      binary_search, binary_search_go, can_run, swap_front_remove]
  have h := queue_shape_after_dispatch.2.1 [("f", [0])] []
    ⟨[], [⟨"f", [], 9⟩], []⟩ 0 ⟨[], [], []⟩ [.invoke 0 ⟨"f", [], 9⟩] hEval
    (by decide)
  exact ⟨⟨hEval, by decide⟩, h⟩

/-- Witness for C5: worker 0 pulls object 0 held only by worker 1; the
DELIVER goes to holder 1, carrying worker 0's address. -/
theorem deliver_object_witness :
    (([[1]] : ObjTable)[0]? = some [1] ∧ (0 : WorkerID) ∉ ([1] : List WorkerID) ∧
      ([1] : List WorkerID) ≠ [] ∧ 0 < ([1] : List WorkerID).length ∧
      0 < (["a", "b"] : List String).length) ∧
    (∃ pullid addr, ([1] : List WorkerID)[0]? = some pullid ∧
      pullid ∈ ([1] : List WorkerID) ∧ (["a", "b"] : List String)[0]? = some addr ∧
      deliver_object 0 0 ["a", "b"] [[1]] 0 = some [⟨pullid, 0, addr⟩]) :=
  ⟨⟨rfl, by decide, by decide, by decide, by decide⟩,
    deliver_object_contract.2 0 0 ["a", "b"] [[1]] 0 [1] rfl (by decide)
      (by decide) (by decide) (by decide)⟩

/-- Witness for C6: registering worker 1 then worker 0 for `f` from the
empty table yields the strictly increasing set `[0, 1]`. -/
theorem fntable_sorted_witness :
    (fnLookup ([(1, "f"), (0, "f")].foldl
        (fun t m => register_function t m.1 m.2) []) "f" = some [0, 1]) ∧
    List.Pairwise (· < ·) ([0, 1] : List WorkerID) := by
  have h1 : register_function [] 1 "f" = [("f", [1])] := by
    rw [register_function_of_none 1 (show fnLookup [] "f" = none from rfl)]
    rfl
  have hbs : binary_search [1] 0 = .error 0 := by
    simp [binary_search, binary_search_go]
  have h2 : register_function [("f", [1])] 0 "f" = [("f", [0, 1])] := by
    rw [register_function_of_some 0 (show fnLookup [("f", [1])] "f" = some [1]
      from rfl)]
    rw [hbs]
    rfl
  have hEval : fnLookup ([((1 : WorkerID), "f"), (0, "f")].foldl
      (fun t m => register_function t m.1 m.2) []) "f" = some [0, 1] := by
    rw [List.foldl_cons, List.foldl_cons, List.foldl_nil, h1, h2]
    rfl
  exact ⟨hEval, fntable_strictly_increasing.1 [(1, "f"), (0, "f")] "f" [0, 1]
    hEval⟩

/-- Counterexample for C7 as stated: from the (unsorted, hence unreachable
but syntactically allowed) table `f ↦ [0,0,0,2,0]`, registering worker 1
twice inserts it twice — the second binary search misses the first
insertion. -/
theorem register_idem_cex :
    fnLookup (register_function
        (register_function [("f", [0, 0, 0, 2, 0])] 1 "f") 1 "f") "f" ≠
      fnLookup (register_function [("f", [0, 0, 0, 2, 0])] 1 "f") "f" := by
  simp [register_function, fnLookup, fnUpdate, binary_search,
    binary_search_go]

/-- Witness for C7 (amended): from the sorted entry `x ↦ [0, 2]`,
registering worker 1 twice equals registering it once. -/
theorem register_idem_witness :
    EntrySorted [("x", [0, 2])] "x" ∧
    register_function (register_function [("x", [0, 2])] 1 "x") 1 "x" =
      register_function [("x", [0, 2])] 1 "x" := by
  have hes : EntrySorted [("x", [0, 2])] "x" := by
    intro v hv
    rw [fnLookup, if_pos rfl] at hv
    injection hv with hv
    subst hv
    decide
  exact ⟨hes, register_function_idempotent [("x", [0, 2])] 1 "x" hes⟩

/-- Counterexample for C8 as stated: worker id `10^7` has eight decimal
digits, so the frame prefix is 8 bytes and the body does not start at
offset 7. -/
theorem broadcast_framing_cex :
    (decimal_bytes 10000000).length = 8 ∧
    (publish_frame 10000000 [99]).drop 7 = [48, 99] ∧
    (publish_frame 10000000 [99]).drop 7 ≠ [99] := by
  refine ⟨?_, ?_, ?_⟩ <;>
    simp [publish_frame, decimal_bytes, decimal_digits_go]

/-- Witness for C8 (amended) at worker id 42: five pad bytes, the two digit
bytes, then the body at offset 7. -/
theorem broadcast_framing_witness :
    (42 < 10 ^ 7) ∧
    ((publish_frame 42 [7, 7]).take 7 =
        List.replicate (7 - (decimal_bytes 42).length) 48 ++ decimal_bytes 42 ∧
      ((publish_frame 42 [7, 7]).take 7).length = 7 ∧
      (publish_frame 42 [7, 7]).drop 7 = [7, 7]) :=
  ⟨by norm_num, broadcast_framing 42 [7, 7] (by norm_num)⟩

/-- Counterexample for C10 as stated: a `Job` event whose call refers to the
unallocated object 5 does not panic — the capability mismatch short-circuits
the availability check and the call is queued, no channel even being
needed. -/
theorem oob_panics_cex :
    dispatch_event_ch [("g", [1])] [] ⟨[], [0], [], []⟩
        (.job ⟨"g", [5], 0⟩) =
      some (⟨[], [0], [⟨"g", [5], 0⟩], []⟩, []) ∧
    5 ∈ (Call.mk "g" [5] 0).args ∧ List.length ([] : ObjTable) ≤ 5 := by
  refine ⟨?_, by decide, by decide⟩
  simp [dispatch_event_ch, find_next_worker, find_next_worker_go, fnLookup,
    binary_search, binary_search_go]

/-- Witness for C10 (amended): a pull of the unallocated object 0 panics; a
pull of an allocated, held object panics when the destination worker has no
registered channel, and is served when it has one. -/
theorem oob_panics_witness :
    (List.length ([] : ObjTable) ≤ 0 ∧
      dispatch_event_ch [] [] ⟨[], [], [], []⟩ (.pull 5 0) = none) ∧
    (([[7]] : ObjTable)[0]? = some [7] ∧ 0 < ([7] : List WorkerID).length ∧
      List.length ([] : List Chan) ≤ 5 ∧
      dispatch_event_ch [] [[7]] ⟨[], [], [], []⟩ (.pull 5 0) = none) ∧
    ((0 : ObjRef) < List.length ([[7]] : ObjTable) ∧
      (0 : WorkerID) < List.length ([9] : List Chan) ∧
      (dispatch_event_ch [] [[7]] ⟨[9], [], [], []⟩ (.pull 0 0)).isSome) :=
  ⟨⟨by decide, oob_reference_panics.1 [] [] ⟨[], [], [], []⟩ 5 0 (by decide)⟩,
    ⟨rfl, by decide, by decide,
      oob_reference_panics.2.2.1 [] [[7]] ⟨[], [], [], []⟩ 5 0 [7] rfl
        (by decide) (by decide)⟩,
    ⟨by decide, by decide,
      oob_reference_panics.2.2.2.2.2.1 [] [[7]] ⟨[9], [], [], []⟩ 0 0
        (by decide) (by decide)⟩⟩

end Orchestra
